import Mathlib

/-!
# Verification of the bluebookify citation-correction pipeline

This file is a shallow embedding of the `bluebookify` TypeScript sources
(`src/extractor.ts`, `src/replacer.ts`, `src/prompt.ts`, `src/core.ts`) in
Lean 4, together with proofs of the behavioural properties stated in the
project specification.

Modelling conventions:
* JavaScript strings are modelled as `List Char` (the inputs of interest are
  plain text; UTF-16 surrogate issues do not arise).
* JavaScript numbers are modelled as `ℚ` (exact rationals).  All numbers the
  pipeline manipulates are small integers or short decimal fractions, for
  which IEEE doubles are exact, so this is faithful on the relevant domain.
* `JSON.parse` is modelled by an executable recursive-descent parser for the
  JSON grammar (`jsonParse` below).
* Errors thrown by the TypeScript code are modelled by an `Except` monad with
  a structured error type; each constructor corresponds to one `throw new
  Error(...)` site and carries the data interpolated into that message.
* The regex scanning phase of the extractor (`CASE_RE`, `STATUTE_RE`,
  `SHORT_FORM_RE`, `ID_RE`, `SIGNAL_RE`) is not re-implemented; instead the
  extractor model takes the lists of raw pattern matches and signal matches
  as parameters, and theorems about the extractor hypothesise exactly the
  properties `RegExp.exec` guarantees for these patterns (matches lie inside
  the text, are nonempty, store the matched slice; occurrences of a single
  pattern are disjoint and in ascending order).
-/

namespace Bluebookify

instance {ε α : Type} [DecidableEq ε] [DecidableEq α] : DecidableEq (Except ε α)
  | .ok x, .ok y =>
    if h : x = y then .isTrue (by rw [h]) else .isFalse (by simp [h])
  | .error x, .error y =>
    if h : x = y then .isTrue (by rw [h]) else .isFalse (by simp [h])
  | .ok _, .error _ => .isFalse (fun h => by cases h)
  | .error _, .ok _ => .isFalse (fun h => by cases h)

/-! ## JavaScript string primitives -/

/-- Whitespace as matched by the JavaScript regexp `\s` and by
`String.prototype.trim` (restricted to the characters that can occur in the
inputs we model). -/
def jsWs (c : Char) : Bool :=
  c = ' ' || c = '\t' || c = '\n' || c = '\r' || c = '\x0b' || c = '\x0c'

/-- `String.prototype.trim`. -/
def jsTrim (s : List Char) : List Char :=
  ((s.dropWhile jsWs).reverse.dropWhile jsWs).reverse

/-- `s.slice(a, b)` for `0 ≤ a ≤ b` (the only way the sources call it). -/
def jsSlice (s : List Char) (a b : Nat) : List Char :=
  (s.take b).drop a

/-- `s.slice(-n)`: the last `n` characters (all of `s` when shorter). -/
def takeLast (n : Nat) (s : List Char) : List Char :=
  s.drop (s.length - n)

/-! ## A model of `JSON.parse`

Executable recursive-descent parser for JSON values, used to model the two
`JSON.parse` call sites in `parseResponse`.  Numbers are parsed exactly into
`ℚ`.  The mutual value/array/object recursion is fuelled; `jsonParse`
supplies fuel `3·length + 3`, which is ample because every cycle through the
mutual recursion passes through at most three calls and consumes at least
one character of input. -/

inductive JsonVal : Type where
  | jnull : JsonVal
  | jbool : Bool → JsonVal
  | jnum : ℚ → JsonVal
  | jstr : List Char → JsonVal
  | jarr : List JsonVal → JsonVal
  | jobj : List (List Char × JsonVal) → JsonVal

mutual

/-- Decidable equality of JSON values (`deriving` cannot handle the nested
inductive, so spelt out). -/
def decEqV : (a b : JsonVal) → Decidable (a = b)
  | .jnull, .jnull => .isTrue rfl
  | .jbool x, .jbool y =>
    if h : x = y then .isTrue (by rw [h]) else .isFalse (by simp [h])
  | .jnum x, .jnum y =>
    if h : x = y then .isTrue (by rw [h]) else .isFalse (by simp [h])
  | .jstr x, .jstr y =>
    if h : x = y then .isTrue (by rw [h]) else .isFalse (by simp [h])
  | .jarr xs, .jarr ys =>
    match decEqVL xs ys with
    | .isTrue h => .isTrue (by rw [h])
    | .isFalse h => .isFalse (by simp [h])
  | .jobj xs, .jobj ys =>
    match decEqVO xs ys with
    | .isTrue h => .isTrue (by rw [h])
    | .isFalse h => .isFalse (by simp [h])
  | .jnull, .jbool _ => .isFalse (fun h => by cases h)
  | .jnull, .jnum _ => .isFalse (fun h => by cases h)
  | .jnull, .jstr _ => .isFalse (fun h => by cases h)
  | .jnull, .jarr _ => .isFalse (fun h => by cases h)
  | .jnull, .jobj _ => .isFalse (fun h => by cases h)
  | .jbool _, .jnull => .isFalse (fun h => by cases h)
  | .jbool _, .jnum _ => .isFalse (fun h => by cases h)
  | .jbool _, .jstr _ => .isFalse (fun h => by cases h)
  | .jbool _, .jarr _ => .isFalse (fun h => by cases h)
  | .jbool _, .jobj _ => .isFalse (fun h => by cases h)
  | .jnum _, .jnull => .isFalse (fun h => by cases h)
  | .jnum _, .jbool _ => .isFalse (fun h => by cases h)
  | .jnum _, .jstr _ => .isFalse (fun h => by cases h)
  | .jnum _, .jarr _ => .isFalse (fun h => by cases h)
  | .jnum _, .jobj _ => .isFalse (fun h => by cases h)
  | .jstr _, .jnull => .isFalse (fun h => by cases h)
  | .jstr _, .jbool _ => .isFalse (fun h => by cases h)
  | .jstr _, .jnum _ => .isFalse (fun h => by cases h)
  | .jstr _, .jarr _ => .isFalse (fun h => by cases h)
  | .jstr _, .jobj _ => .isFalse (fun h => by cases h)
  | .jarr _, .jnull => .isFalse (fun h => by cases h)
  | .jarr _, .jbool _ => .isFalse (fun h => by cases h)
  | .jarr _, .jnum _ => .isFalse (fun h => by cases h)
  | .jarr _, .jstr _ => .isFalse (fun h => by cases h)
  | .jarr _, .jobj _ => .isFalse (fun h => by cases h)
  | .jobj _, .jnull => .isFalse (fun h => by cases h)
  | .jobj _, .jbool _ => .isFalse (fun h => by cases h)
  | .jobj _, .jnum _ => .isFalse (fun h => by cases h)
  | .jobj _, .jstr _ => .isFalse (fun h => by cases h)
  | .jobj _, .jarr _ => .isFalse (fun h => by cases h)
termination_by structural a => a

def decEqVL : (a b : List JsonVal) → Decidable (a = b)
  | [], [] => .isTrue rfl
  | [], _ :: _ => .isFalse (fun h => by cases h)
  | _ :: _, [] => .isFalse (fun h => by cases h)
  | x :: xs, y :: ys =>
    match decEqV x y, decEqVL xs ys with
    | .isTrue h₁, .isTrue h₂ => .isTrue (by rw [h₁, h₂])
    | .isFalse h₁, _ => .isFalse (by simp [h₁])
    | _, .isFalse h₂ => .isFalse (by simp [h₂])
termination_by structural a => a

def decEqVO : (a b : List (List Char × JsonVal)) → Decidable (a = b)
  | [], [] => .isTrue rfl
  | [], _ :: _ => .isFalse (fun h => by cases h)
  | _ :: _, [] => .isFalse (fun h => by cases h)
  | (k₁, v₁) :: xs, (k₂, v₂) :: ys =>
    if hk : k₁ = k₂ then
      match decEqV v₁ v₂, decEqVO xs ys with
      | .isTrue h₁, .isTrue h₂ => .isTrue (by rw [hk, h₁, h₂])
      | .isFalse h₁, _ => .isFalse (by simp [h₁])
      | _, .isFalse h₂ => .isFalse (by simp [h₂])
    else .isFalse (by simp [hk])
termination_by structural a => a

end

instance : DecidableEq JsonVal := decEqV

/-- Whitespace allowed by the JSON grammar itself. -/
def jsonWsChar (c : Char) : Bool :=
  c = ' ' || c = '\t' || c = '\n' || c = '\r'

def skipJsonWs (s : List Char) : List Char :=
  s.dropWhile jsonWsChar

def hexDigitVal (c : Char) : Option Nat :=
  if '0' ≤ c ∧ c ≤ '9' then some (c.toNat - '0'.toNat)
  else if 'a' ≤ c ∧ c ≤ 'f' then some (c.toNat - 'a'.toNat + 10)
  else if 'A' ≤ c ∧ c ≤ 'F' then some (c.toNat - 'A'.toNat + 10)
  else none

/-- Body of a JSON string literal (after the opening quote), with escapes. -/
def parseStrBody : List Char → Option (List Char × List Char)
  | [] => none
  | '"' :: rest => some ([], rest)
  | '\\' :: 'u' :: a :: b :: c :: d :: rest =>
    match hexDigitVal a, hexDigitVal b, hexDigitVal c, hexDigitVal d with
    | some va, some vb, some vc, some vd =>
      (parseStrBody rest).map fun p =>
        (Char.ofNat (((va * 16 + vb) * 16 + vc) * 16 + vd) :: p.1, p.2)
    | _, _, _, _ => none
  | '\\' :: e :: rest =>
    match e with
    | '"' => (parseStrBody rest).map fun p => ('"' :: p.1, p.2)
    | '\\' => (parseStrBody rest).map fun p => ('\\' :: p.1, p.2)
    | '/' => (parseStrBody rest).map fun p => ('/' :: p.1, p.2)
    | 'b' => (parseStrBody rest).map fun p => ('\x08' :: p.1, p.2)
    | 'f' => (parseStrBody rest).map fun p => ('\x0c' :: p.1, p.2)
    | 'n' => (parseStrBody rest).map fun p => ('\n' :: p.1, p.2)
    | 'r' => (parseStrBody rest).map fun p => ('\r' :: p.1, p.2)
    | 't' => (parseStrBody rest).map fun p => ('\t' :: p.1, p.2)
    | _ => none
  | c :: rest =>
    if c.toNat < 0x20 then none
    else (parseStrBody rest).map fun p => (c :: p.1, p.2)
termination_by structural s => s

def isDigitCh (c : Char) : Bool := '0' ≤ c ∧ c ≤ '9'

def digitsToNat (ds : List Char) : Nat :=
  ds.foldl (fun acc c => acc * 10 + (c.toNat - '0'.toNat)) 0

/-- The rational value `±(intDs.fds) · 10^(±e)` of a JSON number, built with
`Rat.divInt` (whose normalisation the kernel can evaluate). -/
def mkJsonNum (neg : Bool) (intDs fds : List Char) (eneg : Bool) (e : Nat) : ℚ :=
  let base : Nat := digitsToNat intDs * 10 ^ fds.length + digitsToNat fds
  let num : Int := if neg then -(base : Int) else (base : Int)
  if eneg then Rat.divInt num ((10 ^ fds.length * 10 ^ e : Nat) : Int)
  else Rat.divInt (num * ((10 ^ e : Nat) : Int)) ((10 ^ fds.length : Nat) : Int)

/-- Optional exponent part of a JSON number. -/
def parseExpPart (neg : Bool) (intDs fds : List Char) (s₃ : List Char) :
    Option (ℚ × List Char) :=
  match s₃ with
  | e :: r =>
    if e = 'e' ∨ e = 'E' then
      let (eneg, r₁) : Bool × List Char :=
        match r with
        | '-' :: rr => (true, rr)
        | '+' :: rr => (false, rr)
        | _ => (false, r)
      let eds := r₁.takeWhile isDigitCh
      if eds = [] then none
      else some (mkJsonNum neg intDs fds eneg (digitsToNat eds), r₁.drop eds.length)
    else some (mkJsonNum neg intDs fds false 0, s₃)
  | [] => some (mkJsonNum neg intDs fds false 0, [])

/-- JSON number grammar: `-? int frac? exp?` with no leading zeros. -/
def parseJsonNum (s : List Char) : Option (ℚ × List Char) :=
  let (neg, s₁) : Bool × List Char :=
    match s with
    | '-' :: r => (true, r)
    | _ => (false, s)
  let intDs := s₁.takeWhile isDigitCh
  if intDs = [] then none
  else if intDs.length > 1 ∧ intDs.headI = '0' then none
  else
    let s₂ := s₁.drop intDs.length
    match s₂ with
    | '.' :: r =>
      let fds := r.takeWhile isDigitCh
      if fds = [] then none
      else parseExpPart neg intDs fds (r.drop fds.length)
    | _ => parseExpPart neg intDs [] s₂

mutual

/-- One JSON value, returning the unconsumed remainder. -/
def parseVal : Nat → List Char → Option (JsonVal × List Char)
  | 0, _ => none
  | fuel + 1, s =>
    match skipJsonWs s with
    | 'n' :: 'u' :: 'l' :: 'l' :: r => some (.jnull, r)
    | 't' :: 'r' :: 'u' :: 'e' :: r => some (.jbool true, r)
    | 'f' :: 'a' :: 'l' :: 's' :: 'e' :: r => some (.jbool false, r)
    | '"' :: r => (parseStrBody r).map fun p => (.jstr p.1, p.2)
    | '[' :: r => (parseArrTail fuel r).map fun p => (.jarr p.1, p.2)
    | '{' :: r => (parseObjTail fuel r).map fun p => (.jobj p.1, p.2)
    | t => (parseJsonNum t).map fun p => (.jnum p.1, p.2)
termination_by structural fuel => fuel

/-- Array body after the opening bracket. -/
def parseArrTail : Nat → List Char → Option (List JsonVal × List Char)
  | 0, _ => none
  | fuel + 1, s =>
    match skipJsonWs s with
    | ']' :: r => some ([], r)
    | t => parseArrElems fuel t
termination_by structural fuel => fuel

/-- One array element followed by `,` and more elements, or `]`. -/
def parseArrElems : Nat → List Char → Option (List JsonVal × List Char)
  | 0, _ => none
  | fuel + 1, s =>
    (parseVal fuel s).bind fun (v, r₁) =>
      match skipJsonWs r₁ with
      | ',' :: r₂ => (parseArrElems fuel r₂).map fun p => (v :: p.1, p.2)
      | ']' :: r₂ => some ([v], r₂)
      | _ => none
termination_by structural fuel => fuel

/-- Object body after the opening brace. -/
def parseObjTail : Nat → List Char → Option (List (List Char × JsonVal) × List Char)
  | 0, _ => none
  | fuel + 1, s =>
    match skipJsonWs s with
    | '}' :: r => some ([], r)
    | t => parseObjMembers fuel t
termination_by structural fuel => fuel

/-- One `"key": value` member followed by `,` and more members, or `}`. -/
def parseObjMembers : Nat → List Char → Option (List (List Char × JsonVal) × List Char)
  | 0, _ => none
  | fuel + 1, s =>
    match skipJsonWs s with
    | '"' :: r =>
      (parseStrBody r).bind fun (key, r₁) =>
        match skipJsonWs r₁ with
        | ':' :: r₂ =>
          (parseVal fuel r₂).bind fun (v, r₃) =>
            match skipJsonWs r₃ with
            | ',' :: r₄ => (parseObjMembers fuel r₄).map fun p => ((key, v) :: p.1, p.2)
            | '}' :: r₄ => some ([(key, v)], r₄)
            | _ => none
        | _ => none
    | _ => none
termination_by structural fuel => fuel

end

/-- Model of `JSON.parse`: a full parse must leave only trailing JSON
whitespace; otherwise the call throws (modelled as `none`). -/
def jsonParse (s : List Char) : Option JsonVal :=
  match parseVal (3 * s.length + 3) s with
  | some (v, rest) => if rest.dropWhile jsonWsChar = [] then some v else none
  | none => none

/-! ## Data model (`src/types.ts`) -/

/-- `CitationContext` from `types.ts`.  The source field `end` is renamed
`stop` (`end` is a Lean keyword). -/
structure CitationContext : Type where
  id : Nat
  original : List Char
  before : List Char
  after : List Char
  start : Nat
  stop : Nat
deriving DecidableEq

/-- `CitationCorrection` from `types.ts`.  The `id` is a raw JavaScript
number as produced by `JSON.parse`, hence `ℚ`. -/
structure CitationCorrection : Type where
  id : ℚ
  citation : List Char
deriving DecidableEq

/-- `Correction` (an applied-change audit record) from `types.ts`. -/
structure Correction : Type where
  position : Nat
  original : List Char
  replacement : List Char
  context : List Char
deriving DecidableEq

/-- `BluebookifyResult` from `types.ts`. -/
structure BluebookifyResult : Type where
  text : List Char
  corrections : List Correction
  unchanged : Bool
deriving DecidableEq

/-- A chat message (`{role, content}`) sent to the LLM. -/
structure Msg : Type where
  role : List Char
  content : List Char
deriving DecidableEq

/-- Structured model of every `throw new Error(...)` site in the pipeline.
Each constructor carries the data interpolated into the thrown message. -/
inductive BBError : Type where
  /-- "Invalid LLM response: no JSON array found. ..." -/
  | noJsonArray : BBError
  /-- "Invalid correction at index ⟨idx⟩: ..." -/
  | invalidCorrection : Nat → BBError
  /-- "Empty citation at index ⟨idx⟩ (id ⟨id⟩): ..." -/
  | emptyCitation : Nat → ℚ → BBError
  /-- "Duplicate correction id ⟨id⟩ at index ⟨idx⟩" -/
  | duplicateId : ℚ → Nat → BBError
  /-- "LLM returned unexpected id ⟨id⟩ (not in this batch)" -/
  | unexpectedBatchId : ℚ → BBError
  /-- "LLM missing correction for id ⟨id⟩ in batch" -/
  | missingBatchId : Nat → BBError
  /-- "Missing correction for citation id ⟨id⟩" -/
  | missingCorrection : Nat → BBError
  /-- "Unknown correction id ⟨id⟩: no matching citation context" -/
  | unknownCorrectionId : ℚ → BBError
  /-- An error thrown by the LLM call itself, propagated verbatim. -/
  | llmFailure : List Char → BBError
deriving DecidableEq

/-! ## `parseResponse` (`src/replacer.ts`, lines 13–84) -/

/-- The regex replace `cleaned.replace(/^```(?:json)?\s*\n?/i, "")`: drop a
leading three-backtick fence, an optional case-insensitive `json` tag, and
the following whitespace. -/
def stripLeadingFence (s : List Char) : List Char :=
  if s.take 3 = ['`', '`', '`'] then
    let r := s.drop 3
    let r := if (r.take 4).map Char.toLower = ['j', 's', 'o', 'n'] then r.drop 4 else r
    r.dropWhile jsWs
  else s

/-- The regex replace `.replace(/\n?```\s*$/, "")`: drop a trailing
three-backtick fence (with its trailing whitespace and one preceding
newline, when present). -/
def stripTrailingFence (s : List Char) : List Char :=
  let k := (s.reverse.takeWhile jsWs).length
  let core := s.take (s.length - k)
  if (core.reverse.take 3) = ['`', '`', '`'] then
    let core := core.take (core.length - 3)
    if core.reverse.take 1 = ['\n'] then core.take (core.length - 1) else core
  else s

/-- The `cleaned` string computed by `parseResponse` before any JSON
parsing: trim, strip markdown fences, trim again. -/
def cleanResponse (response : List Char) : List Char :=
  jsTrim (stripTrailingFence (stripLeadingFence (jsTrim response)))

/-- JavaScript property read `obj.key` on an object built by `JSON.parse`:
with duplicate keys the last occurrence wins. -/
def getField (fields : List (List Char × JsonVal)) (key : List Char) : Option JsonVal :=
  (fields.reverse.find? (fun f => f.1 = key)).map (·.2)

/-- The shape check of one reply element (replacer.ts line 63):
`typeof rec === "object" && rec !== null && typeof rec.id === "number" &&
typeof rec.citation === "string"`, returning the extracted record. -/
def asCorrection (v : JsonVal) : Option CitationCorrection :=
  match v with
  | .jobj fields =>
    match getField fields ['i', 'd'], getField fields ['c', 'i', 't', 'a', 't', 'i', 'o', 'n'] with
    | some (.jnum q), some (.jstr s) => some ⟨q, s⟩
    | _, _ => none
  | _ => none

/-- The validating `parsed.map((item, idx) => ...)` loop of `parseResponse`
(replacer.ts lines 60–83): `idx` is the current index, `seen` the set of ids
already accepted. -/
def validateItems : List JsonVal → Nat → List ℚ → Except BBError (List CitationCorrection)
  | [], _, _ => .ok []
  | v :: vs, idx, seen =>
    match asCorrection v with
    | none => .error (.invalidCorrection idx)
    | some c =>
      if jsTrim c.citation = [] then .error (.emptyCitation idx c.id)
      else if seen.contains c.id then .error (.duplicateId c.id idx)
      else (validateItems vs (idx + 1) (c.id :: seen)).map (c :: ·)

/-- `cleaned.lastIndexOf("]")`. -/
def lastCloseIdx (s : List Char) : Option Nat :=
  (s.reverse.findIdx? (· = ']')).map (fun k => s.length - 1 - k)

/-- The fallback scan (replacer.ts lines 37–48): try each `[` at an index
`i < e` from the left, paired with the last `]` at index `e`, accepting the
first slice that parses as a JSON array.  `rem = e - i` is the number of
indices still to try, kept explicit so the recursion is structural. -/
def scanAux (cleaned : List Char) (e : Nat) : Nat → Nat → Option (List JsonVal)
  | 0, _ => none
  | rem + 1, i =>
    if cleaned.getD i ' ' = '[' then
      match jsonParse (jsSlice cleaned i (e + 1)) with
      | some (.jarr xs) => some xs
      | _ => scanAux cleaned e rem (i + 1)
    else scanAux cleaned e rem (i + 1)

def scanFrom (cleaned : List Char) (e : Nat) : Option (List JsonVal) :=
  scanAux cleaned e e 0

/-- Locating the reply's JSON array (replacer.ts lines 19–57): strict
`JSON.parse` first, keeping the result only if it is an array, then the
bracket-scanning fallback, else the "no JSON array found" error. -/
def extractItems (cleaned : List Char) : Except BBError (List JsonVal) :=
  match jsonParse cleaned with
  | some (.jarr xs) => .ok xs
  | _ =>
    match lastCloseIdx cleaned with
    | none => .error .noJsonArray
    | some e =>
      match scanFrom cleaned e with
      | some xs => .ok xs
      | none => .error .noJsonArray

/-- `parseResponse` (replacer.ts lines 13–84). -/
def parseResponse (response : List Char) : Except BBError (List CitationCorrection) :=
  (extractItems (cleanResponse response)).bind fun items => validateItems items 0 []

/-! ## `applyCorrections` (`src/replacer.ts`, lines 93–155) -/

/-- `result.slice(0, a) + r + result.slice(b)`. -/
def spliceAt (s : List Char) (a b : Nat) (r : List Char) : List Char :=
  s.take a ++ r ++ s.drop b

/-- The `correctionMap` lookup: `Map.set` is applied to the corrections in
order, so with duplicate ids the last one wins. -/
def lookupCitation (cors : List CitationCorrection) (id : ℚ) : Option (List Char) :=
  (cors.reverse.find? (fun c => decide (c.id = id))).map (·.citation)

/-- The audit snippet built for one applied change (replacer.ts 137–139). -/
def mkSnippet (ctx : CitationContext) (rep : List Char) : List Char :=
  takeLast 30 ctx.before ++ ['['] ++ ctx.original ++ ['→'] ++ rep ++ [']'] ++ ctx.after.take 30

/-- Descending-by-`start` comparison used by `changes.sort((a, b) =>
b.context.start - a.context.start)`.  A JavaScript comparator sort is
modelled by insertion sort; the two agree whenever the keys are distinct,
which the span invariants guarantee. -/
def descStart (a b : CitationContext × List Char) : Prop :=
  b.1.start ≤ a.1.start

instance : DecidableRel descStart := fun a b => Nat.decLe b.1.start a.1.start

/-- `correctionMap.get(ctx.id)!` — the replacement for one span.  The `!`
assertion never fires after validation; its failure is modelled by `[]`. -/
def repOf (cors : List CitationCorrection) (ctx : CitationContext) : List Char :=
  (lookupCitation cors (ctx.id : ℚ)).getD []

/-- The changes loop (replacer.ts lines 120–126): the spans whose
replacement differs from the original, paired with that replacement. -/
def changePairs (cors : List CitationCorrection) (contexts : List CitationContext) :
    List (CitationContext × List Char) :=
  contexts.filterMap (fun ctx =>
    let rep := repOf cors ctx
    if rep ≠ ctx.original then some (ctx, rep) else none)

/-- `applyCorrections` (replacer.ts lines 93–155). -/
def applyCorrections (text : List Char) (contexts : List CitationContext)
    (cors : List CitationCorrection) : Except BBError (List Char × List Correction) :=
  match contexts.find? (fun ctx => (lookupCitation cors (ctx.id : ℚ)).isNone) with
  | some ctx => .error (.missingCorrection ctx.id)
  | none =>
    match cors.find? (fun c => !(contexts.any (fun ctx => decide ((ctx.id : ℚ) = c.id)))) with
    | some c => .error (.unknownCorrectionId c.id)
    | none =>
      let sorted := (changePairs cors contexts).insertionSort descStart
      let folded := sorted.foldl (fun acc p =>
        (spliceAt acc.1 p.1.start p.1.stop p.2,
         acc.2 ++ [⟨p.1.start, p.1.original, p.2, mkSnippet p.1 p.2⟩]))
        (text, ([] : List Correction))
      .ok (folded.1, folded.2.reverse)

/-! ## The span extractor (`src/extractor.ts`)

The regex scanning phase is a parameter: `matches` stands for the
concatenated `exec` results of `CASE_RE`, `STATUTE_RE`, `SHORT_FORM_RE` and
`ID_RE` (extractor.ts lines 54–66), `signals` for the `SIGNAL_RE` results
(lines 69–78).  Everything after that point (lines 80–141) is modelled
directly. -/

/-- A raw regex match `{text, start, end}` (`end` renamed `stop`). -/
structure PatternMatch : Type where
  text : List Char
  start : Nat
  stop : Nat
deriving DecidableEq

/-- The comparator `(a, b) => a.start - b.start || b.end - a.end`
(extractor.ts line 81): ascending `start`, descending `end`. -/
def matchLE (a b : PatternMatch) : Prop :=
  a.start < b.start ∨ (a.start = b.start ∧ b.stop ≤ a.stop)

instance : DecidableRel matchLE := fun a b => by unfold matchLE; infer_instance

def sortMatches (ms : List PatternMatch) : List PatternMatch :=
  ms.insertionSort matchLE

/-- The merge loop (extractor.ts lines 83–95), with the mutable "last pushed
span" made explicit as the accumulator `cur`. -/
def mergeRec (text : List Char) : PatternMatch → List PatternMatch → List PatternMatch
  | cur, [] => [cur]
  | cur, m :: ms =>
    if m.start ≤ cur.stop then
      if cur.stop < m.stop then
        mergeRec text ⟨jsSlice text cur.start m.stop, cur.start, m.stop⟩ ms
      else mergeRec text cur ms
    else cur :: mergeRec text m ms

def mergeMatches (text : List Char) : List PatternMatch → List PatternMatch
  | [] => []
  | m :: ms => mergeRec text m ms

/-- The signal-fusion loop for one merged citation (extractor.ts lines
98–105): each signal is tested against the citation's current `start`. -/
def fuseOne (text : List Char) (signals : List PatternMatch) (c : PatternMatch) : PatternMatch :=
  signals.foldl (fun c s =>
    if s.stop = c.start ∨ s.stop + 1 = c.start then
      ⟨jsSlice text s.start c.stop, s.start, c.stop⟩
    else c) c

def fuseSignals (text : List Char) (signals : List PatternMatch)
    (merged : List PatternMatch) : List PatternMatch :=
  merged.map (fuseOne text signals)

/-- The `before` context window (extractor.ts lines 115–124). -/
def beforeCtx (text : List Char) (cw start : Nat) : List Char :=
  let bStart := start - cw
  let before := jsSlice text bStart start
  if 0 < bStart then
    match before.findIdx? jsWs with
    | some idx => (before.drop idx).dropWhile jsWs
    | none => before
  else before

/-- `after.search(/\s[^\s]*$/)`: the index of the last whitespace character
(the regex can only match there). -/
def lastWsIdx (s : List Char) : Option Nat :=
  (s.reverse.findIdx? jsWs).map (fun k => s.length - 1 - k)

/-- The `after` context window (extractor.ts lines 127–135). -/
def afterCtx (text : List Char) (cw stop : Nat) : List Char :=
  let aEnd := min text.length (stop + cw)
  let after := jsSlice text stop aEnd
  if aEnd < text.length then
    match lastWsIdx after with
    | some idx => if 0 < idx then after.take idx else after
    | none => after
  else after

/-- `extractCitations` (extractor.ts lines 47–141), parameterised by the raw
regex match lists as explained above. -/
def extractCitationsFrom (text : List Char) (contextSize : Nat)
    (ms signals : List PatternMatch) : List CitationContext :=
  let merged := fuseSignals text signals (mergeMatches text (sortMatches ms))
  merged.enum.map (fun p =>
    ⟨p.1, p.2.text, beforeCtx text contextSize p.2.start,
     afterCtx text contextSize p.2.stop, p.2.start, p.2.stop⟩)

/-! ## `buildMessages` (`src/prompt.ts`) -/

/-- The fixed system prompt, with the optional caller-supplied rule block
spliced in (prompt.ts lines 14–34).  The braces of the format example are
written with character escapes. -/
def systemPrompt (rules : Option (List Char)) : List Char :=
  let ruleBlock : List Char :=
    match rules with
    | some r => '\n' :: (r ++ ['\n'])
    | none => []
  ("You are a legal citation expert specializing in Bluebook format " ++
   "(The Bluebook: A Uniform System of Citation).\n").data
  ++ ruleBlock ++
  ("\nYour task is to correct each citation below to proper Bluebook format.\n" ++
   "\nKey Bluebook rules to apply:\n" ++
   "- Case names italicized (use *asterisks* for italic markers)\n" ++
   "- Proper reporter abbreviations with correct spacing (e.g., \"F.3d\" not \"F. 3d\")\n" ++
   "- Correct use of \"v.\" (not \"vs.\" or \"vs\")\n" ++
   "- Proper pincite format with comma separators\n" ++
   "- Proper short-form citations (Id. rules)\n" ++
   "- Correct section symbols and spacing for statutes\n" ++
   "- Proper parenthetical format for court and year\n" ++
   "\nIMPORTANT: You must return exactly one entry for every id provided. Do not skip any.\n" ++
   "If a citation is already correctly formatted, return it unchanged.\n" ++
   "Respond with ONLY a JSON array. No explanation, no markdown fences.\n" ++
   "Format: [\x7b\"id\":0,\"citation\":\"*Marbury v. Madison*, 5 U.S. (1 Cranch) 137 (1803)\"\x7d]").data

/-- One line of the data message: `[id] “before” [original] “after”`. -/
def userLine (ctx : CitationContext) : List Char :=
  '[' :: ((toString ctx.id).data ++ ([']', ' ', '“'] ++ ctx.before ++ ['”', ' ', '['] ++
    ctx.original ++ ([']', ' ', '“'] ++ ctx.after ++ ['”'])))

/-- The data message: one line per span, joined with newlines. -/
def userContent (contexts : List CitationContext) : List Char :=
  List.intercalate ['\n'] (contexts.map userLine)

/-- `buildMessages` (prompt.ts lines 10–44). -/
def buildMessages (contexts : List CitationContext) (rules : Option (List Char)) : List Msg :=
  [⟨"system".data, systemPrompt rules⟩, ⟨"user".data, userContent contexts⟩]

/-! ## The pipeline (`src/core.ts`)

The `requireInt` guards on `batchSize`/`contextSize` and the LLM-binding
resolution are configuration validation on JavaScript numbers; the claims
all assume a valid configuration, which is expressed as `Nat`-typed sizes
plus a `1 ≤ batchSize` hypothesis where relevant.  The LLM transport is a
parameter `llm`; `.error` stands for a rejected promise, which `bluebookify`
propagates unchanged. -/

/-- The batch's id list (`batch.map((ctx) => ctx.id)`). -/
def idsOf (l : List CitationContext) : List Nat :=
  l.map (·.id)

/-- `validateBatchIds` (core.ts lines 18–29).  `expected` is the batch's id
list (the source builds a `Set` from it; only membership and first-failure
order matter, which a list preserves). -/
def validateBatchIds (cors : List CitationCorrection) (expected : List Nat) :
    Except BBError Unit :=
  match cors.find? (fun c => !(expected.any (fun n => decide ((n : ℚ) = c.id)))) with
  | some c => .error (.unexpectedBatchId c.id)
  | none =>
    match expected.find? (fun (n : Nat) => !(cors.any (fun c => decide (c.id = (n : ℚ))))) with
    | some n => .error (.missingBatchId n)
    | none => .ok ()

/-- `contexts.slice(i, i + batchSize)` for `i = 0, B, 2B, ...` (core.ts
lines 63–64): the loop runs `⌈N/B⌉` times and the `k`-th iteration slices
`[k·B, k·B + B)`.  Faithful for `B ≥ 1` (for `B = 0` the source loop would
not terminate; `requireInt` rules that out). -/
def chunks (B : Nat) (l : List α) : List (List α) :=
  (List.range ((l.length + B - 1) / B)).map (fun k => (l.drop (k * B)).take B)

/-- The body of one iteration of the batch loop (core.ts lines 64–70). -/
def batchStep (llm : List Msg → Except (List Char) (List Char))
    (rules : Option (List Char)) (batch : List CitationContext) :
    Except BBError (List CitationCorrection) :=
  match llm (buildMessages batch rules) with
  | .error e => .error (.llmFailure e)
  | .ok reply =>
    (parseResponse reply).bind fun cors =>
      (validateBatchIds cors (idsOf batch)).map fun _ => cors

/-- The batch loop (core.ts lines 61–71).  Returns the accumulated
corrections (or the first error) together with the trace of message lists
sent to the LLM, in call order; the calls are strictly sequential, so on a
failure the trace ends with the failing call. -/
def runBatches (llm : List Msg → Except (List Char) (List Char))
    (rules : Option (List Char)) :
    List (List CitationContext) → Except BBError (List CitationCorrection) × List (List Msg)
  | [] => (.ok [], [])
  | b :: bs =>
    match batchStep llm rules b with
    | .error e => (.error e, [buildMessages b rules])
    | .ok cors =>
      let rest := runBatches llm rules bs
      (rest.1.map (fun more => cors ++ more), buildMessages b rules :: rest.2)

/-- `bluebookify` (core.ts lines 37–81), with the extractor's regex phase
parameterised as in `extractCitationsFrom`. -/
def bluebookifyModel (text : List Char) (contextSize batchSize : Nat)
    (rules : Option (List Char)) (llm : List Msg → Except (List Char) (List Char))
    (ms signals : List PatternMatch) :
    Except BBError BluebookifyResult × List (List Msg) :=
  let contexts := extractCitationsFrom text contextSize ms signals
  if contexts.isEmpty then (.ok ⟨text, [], true⟩, [])
  else
    let r := runBatches llm rules (chunks batchSize contexts)
    match r.1 with
    | .error e => (.error e, r.2)
    | .ok cors =>
      match applyCorrections text contexts cors with
      | .error e => (.error e, r.2)
      | .ok res => (.ok ⟨res.1, res.2, res.2.isEmpty⟩, r.2)

/-! ## Span invariants and the splicing specification -/

/-- Position part of the span invariants (spec §3): starting from cursor
`p`, every span satisfies `p ≤ start < stop ≤ len` and ends before the next
span starts. -/
def ChainBounded (len : Nat) : Nat → List CitationContext → Prop
  | _, [] => True
  | p, x :: xs => p ≤ x.start ∧ x.start < x.stop ∧ x.stop ≤ len ∧ ChainBounded len x.stop xs

def ChainBounded.dec (len : Nat) :
    (p : Nat) → (l : List CitationContext) → Decidable (ChainBounded len p l)
  | _, [] => .isTrue trivial
  | p, x :: xs =>
    have : Decidable (ChainBounded len x.stop xs) := ChainBounded.dec len x.stop xs
    by unfold ChainBounded; infer_instance

instance (len p : Nat) (l : List CitationContext) : Decidable (ChainBounded len p l) :=
  ChainBounded.dec len p l

/-- Specification of the corrected text, following the claim: the original
text with each span's `[start, stop)` range replaced by its correction and
every byte outside the spans preserved.  `p` is the cursor. -/
def splicedSpec (text : List Char) (cors : List CitationCorrection) :
    Nat → List CitationContext → List Char
  | p, [] => text.drop p
  | p, x :: xs => jsSlice text p x.start ++ repOf cors x ++ splicedSpec text cors x.stop xs

/-- Specification of the returned audit list: one record per span whose
correction differs from its text, in original span order. -/
def changesSpec (cors : List CitationCorrection) (contexts : List CitationContext) :
    List Correction :=
  (changePairs cors contexts).map (fun p => ⟨p.1.start, p.1.original, p.2, mkSnippet p.1 p.2⟩)

theorem chainBounded_weaken {len : Nat} :
    ∀ {p p' : Nat} {l : List CitationContext}, ChainBounded len p l → p' ≤ p →
      ChainBounded len p' l
  | _, _, [], _, _ => trivial
  | _, _, _ :: _, h, hp => ⟨hp.trans h.1, h.2.1, h.2.2.1, h.2.2.2⟩

theorem chainBounded_le_start {len : Nat} :
    ∀ {p : Nat} {l : List CitationContext}, ChainBounded len p l → ∀ x ∈ l, p ≤ x.start := by
  intro p l
  induction l generalizing p with
  | nil => intro _ x hx; cases hx
  | cons y ys ih =>
    intro h x hx
    rcases List.mem_cons.mp hx with rfl | hx
    · exact h.1
    · exact le_trans (le_trans h.1 (Nat.le_of_lt h.2.1)) (ih h.2.2.2 x hx)

/-- Under the chain invariant the spans' start offsets are pairwise strictly
increasing. -/
theorem chainBounded_pairwise_lt {len : Nat} :
    ∀ {p : Nat} {l : List CitationContext}, ChainBounded len p l →
      l.Pairwise (fun a b => a.start < b.start) := by
  intro p l
  induction l generalizing p with
  | nil => exact fun _ => List.Pairwise.nil
  | cons y ys ih =>
    intro h
    refine List.Pairwise.cons (fun b hb => ?_) (ih h.2.2.2)
    exact Nat.lt_of_lt_of_le h.2.1 (chainBounded_le_start h.2.2.2 b hb)

theorem changePairs_nil (cors : List CitationCorrection) : changePairs cors [] = [] := rfl

theorem changePairs_cons (cors : List CitationCorrection) (x : CitationContext)
    (xs : List CitationContext) :
    changePairs cors (x :: xs) =
      if repOf cors x ≠ x.original then (x, repOf cors x) :: changePairs cors xs
      else changePairs cors xs := by
  by_cases hne : repOf cors x ≠ x.original <;>
    simp [changePairs, List.filterMap_cons, hne]

theorem fst_mem_of_mem_changePairs {cors : List CitationCorrection}
    {l : List CitationContext} {pr : CitationContext × List Char}
    (h : pr ∈ changePairs cors l) : pr.1 ∈ l := by
  induction l with
  | nil => simp [changePairs_nil] at h
  | cons x xs ih =>
    rw [changePairs_cons] at h
    by_cases hne : repOf cors x ≠ x.original
    · rw [if_pos hne] at h
      rcases List.mem_cons.mp h with rfl | h
      · exact List.mem_cons_self x xs
      · exact List.mem_cons_of_mem x (ih h)
    · rw [if_neg hne] at h
      exact List.mem_cons_of_mem x (ih h)

theorem pairwise_changePairs (cors : List CitationCorrection) :
    ∀ {l : List CitationContext}, l.Pairwise (fun a b => a.start < b.start) →
      (changePairs cors l).Pairwise (fun a b => a.1.start < b.1.start) := by
  intro l hl
  induction l with
  | nil => exact List.Pairwise.nil
  | cons x xs ih =>
    rcases List.pairwise_cons.mp hl with ⟨hx, hxs⟩
    rw [changePairs_cons]
    by_cases hne : repOf cors x ≠ x.original
    · rw [if_pos hne]
      refine List.Pairwise.cons (fun b hb => ?_) (ih hxs)
      exact hx b.1 (fst_mem_of_mem_changePairs hb)
    · rw [if_neg hne]; exact ih hxs

/-! ### The descending sort -/

theorem orderedInsert_eq_append {α : Type} (r : α → α → Prop) [DecidableRel r] (x : α) :
    ∀ l : List α, (∀ y ∈ l, ¬ r x y) → List.orderedInsert r x l = l ++ [x]
  | [], _ => rfl
  | y :: ys, h => by
    rw [List.orderedInsert, if_neg (h y (List.mem_cons_self y ys)),
      orderedInsert_eq_append r x ys (fun z hz => h z (List.mem_cons_of_mem y hz))]
    simp

/-- On a list whose keys are strictly increasing, the descending
comparator sort (the model of `changes.sort((a, b) => b.start - a.start)`)
is exactly list reversal. -/
theorem insertionSort_desc_eq_reverse :
    ∀ l : List (CitationContext × List Char),
      l.Pairwise (fun a b => a.1.start < b.1.start) →
      List.insertionSort descStart l = l.reverse
  | [], _ => rfl
  | x :: xs, h => by
    have hx := (List.pairwise_cons.mp h).1
    rw [show List.insertionSort descStart (x :: xs) =
        List.orderedInsert descStart x (List.insertionSort descStart xs) from rfl,
      insertionSort_desc_eq_reverse xs (List.pairwise_cons.mp h).2,
      orderedInsert_eq_append descStart x xs.reverse (fun y hy => ?_)]
    · simp
    · have := hx y (List.mem_reverse.mp hy)
      unfold descStart
      omega

/-! ### The splice fold -/

/-- The two components of the splice-and-audit fold are independent: the
text accumulates the splices, the audit list accumulates one record per
processed change, in processing order. -/
theorem fold_components (l : List (CitationContext × List Char)) (t : List Char)
    (acc : List Correction) :
    l.foldl (fun acc p => (spliceAt acc.1 p.1.start p.1.stop p.2,
        acc.2 ++ [⟨p.1.start, p.1.original, p.2, mkSnippet p.1 p.2⟩])) (t, acc)
      = (l.foldl (fun u p => spliceAt u p.1.start p.1.stop p.2) t,
         acc ++ l.map (fun p => (⟨p.1.start, p.1.original, p.2, mkSnippet p.1 p.2⟩ : Correction))) := by
  induction l generalizing t acc with
  | nil => simp
  | cons p ps ih =>
    rw [List.foldl_cons, ih, List.foldl_cons]
    simp

theorem take_append_jsSlice (t : List Char) {p a : Nat} (hpa : p ≤ a) :
    t.take p ++ jsSlice t p a = t.take a := by
  unfold jsSlice
  have h1 : (t.take a).take p = t.take p := by
    rw [List.take_take]
    congr 1
    omega
  conv_lhs => rw [← h1]
  exact List.take_append_drop p (t.take a)

theorem jsSlice_append_drop (t : List Char) {p a : Nat} (hpa : p ≤ a) (ha : a ≤ t.length) :
    jsSlice t p a ++ t.drop a = t.drop p := by
  unfold jsSlice
  conv_rhs => rw [← List.take_append_drop a t]
  rw [List.drop_append_of_le_length (by rw [List.length_take]; omega)]

/-- Applying splices from the rightmost span leftwards produces exactly the
specified interleaving: the prefix before the cursor `p` is untouched and
beyond it the text alternates untouched gaps with replacements. -/
theorem foldr_splice_spec (text : List Char) (cors : List CitationCorrection) :
    ∀ (l : List CitationContext) (p : Nat), p ≤ text.length →
      ChainBounded text.length p l →
      (∀ x ∈ l, x.original = jsSlice text x.start x.stop) →
      (changePairs cors l).foldr (fun q acc => spliceAt acc q.1.start q.1.stop q.2) text
        = text.take p ++ splicedSpec text cors p l := by
  intro l
  induction l with
  | nil =>
    intro p hp _ _
    rw [changePairs_nil]
    exact (List.take_append_drop p text).symm
  | cons x xs ih =>
    intro p hp h hsl
    have hpx : p ≤ x.start := h.1
    have hx : x.start < x.stop := h.2.1
    have hxs : x.stop ≤ text.length := h.2.2.1
    have htke : (text.take x.stop).length = x.stop := by
      rw [List.length_take]; omega
    have ihx := ih x.stop hxs h.2.2.2 (fun y hy => hsl y (List.mem_cons_of_mem x hy))
    rw [changePairs_cons]
    by_cases hne : repOf cors x ≠ x.original
    · rw [if_pos hne, List.foldr_cons, ihx]
      dsimp only
      rw [splicedSpec]
      unfold spliceAt
      rw [List.take_append_of_le_length (by omega),
        List.take_take, Nat.min_eq_left (Nat.le_of_lt hx),
        List.drop_append_of_le_length (le_of_eq htke.symm),
        List.drop_eq_nil_of_le (le_of_eq htke), List.nil_append]
      simp only [← List.append_assoc]
      rw [take_append_jsSlice text hpx]
    · rw [if_neg hne, ihx]
      rw [not_not] at hne
      rw [splicedSpec, hne, hsl x (List.mem_cons_self x xs)]
      simp only [← List.append_assoc]
      rw [take_append_jsSlice text hpx, take_append_jsSlice text (Nat.le_of_lt hx)]

theorem lookupCitation_isSome {cors : List CitationCorrection} {q : ℚ}
    (h : ∃ c ∈ cors, c.id = q) : (lookupCitation cors q).isSome := by
  unfold lookupCitation
  rcases h with ⟨c, hc, hid⟩
  have hs : (cors.reverse.find? (fun c => decide (c.id = q))).isSome :=
    List.find?_isSome.mpr ⟨c, List.mem_reverse.mpr hc, by simpa using hid⟩
  rcases ho : cors.reverse.find? (fun c => decide (c.id = q)) with _ | v
  · rw [ho] at hs; simp at hs
  · rw [ho]; rfl

/-- Master lemma: when the spans satisfy the span invariants and the
corrections cover exactly the span ids, `applyCorrections` succeeds, the
returned text is the specified interleaving, and the returned audit list is
the ascending-order change list. -/
theorem applyCorrections_eq (text : List Char) (contexts : List CitationContext)
    (cors : List CitationCorrection)
    (hchain : ChainBounded text.length 0 contexts)
    (hslice : ∀ ctx ∈ contexts, ctx.original = jsSlice text ctx.start ctx.stop)
    (hcover : ∀ ctx ∈ contexts, ∃ c ∈ cors, c.id = (ctx.id : ℚ))
    (hknown : ∀ c ∈ cors, ∃ ctx ∈ contexts, (ctx.id : ℚ) = c.id) :
    applyCorrections text contexts cors =
      .ok (splicedSpec text cors 0 contexts, changesSpec cors contexts) := by
  have hfind1 : contexts.find? (fun ctx => (lookupCitation cors (ctx.id : ℚ)).isNone) = none := by
    rw [List.find?_eq_none]
    intro ctx hctx hN
    have hs := lookupCitation_isSome (hcover ctx hctx)
    rw [Option.isNone_iff_eq_none] at hN
    rw [hN] at hs
    simp at hs
  have hfind2 :
      cors.find? (fun c => !(contexts.any (fun ctx => decide ((ctx.id : ℚ) = c.id)))) = none := by
    rw [List.find?_eq_none]
    intro c hc hbad
    rcases hknown c hc with ⟨ctx, hctx, hid⟩
    have hany : contexts.any (fun ctx => decide ((ctx.id : ℚ) = c.id)) = true :=
      List.any_eq_true.mpr ⟨ctx, hctx, by simpa using hid⟩
    rw [hany] at hbad
    simp at hbad
  unfold applyCorrections
  rw [hfind1, hfind2]
  have hpw := pairwise_changePairs cors (chainBounded_pairwise_lt hchain)
  dsimp only
  rw [insertionSort_desc_eq_reverse _ hpw, fold_components, List.nil_append]
  rw [List.foldl_reverse, List.map_reverse, List.reverse_reverse]
  have htext := foldr_splice_spec text cors contexts 0 (Nat.zero_le _) hchain hslice
  rw [List.take_zero, List.nil_append] at htext
  rw [htext]
  rfl

theorem changePairs_noop {cors : List CitationCorrection} :
    ∀ {l : List CitationContext}, (∀ x ∈ l, repOf cors x = x.original) →
      changePairs cors l = [] := by
  intro l hl
  induction l with
  | nil => rfl
  | cons x xs ih =>
    rw [changePairs_cons, if_neg (by simpa using hl x (List.mem_cons_self x xs)),
      ih (fun y hy => hl y (List.mem_cons_of_mem x hy))]

theorem splicedSpec_noop (text : List Char) (cors : List CitationCorrection) :
    ∀ (l : List CitationContext) (p : Nat), p ≤ text.length →
      ChainBounded text.length p l →
      (∀ x ∈ l, x.original = jsSlice text x.start x.stop) →
      (∀ x ∈ l, repOf cors x = x.original) →
      splicedSpec text cors p l = text.drop p := by
  intro l
  induction l with
  | nil => intro p _ _ _ _; rfl
  | cons x xs ih =>
    intro p hp h hsl hrep
    rw [splicedSpec, ih x.stop h.2.2.1 h.2.2.2
        (fun y hy => hsl y (List.mem_cons_of_mem x hy))
        (fun y hy => hrep y (List.mem_cons_of_mem x hy)),
      hrep x (List.mem_cons_self x xs), hsl x (List.mem_cons_self x xs),
      List.append_assoc,
      jsSlice_append_drop text (Nat.le_of_lt h.2.1) h.2.2.1,
      jsSlice_append_drop text h.1 (le_trans (Nat.le_of_lt h.2.1) h.2.2.1)]

/-! ## Claim C1 -/

/-- **C1.** For every original text, every span list satisfying the span
invariants (within-bounds, non-overlapping, ascending, unique ids, stored
text equal to the spanned slice) and every correction list whose id set
exactly matches the spans' id set, `applyCorrections` succeeds and returns
the original text with each span's `[start, stop)` range spliced to its
correction and every byte outside the spans preserved (`splicedSpec`); a
span whose correction equals its stored text contributes exactly its
original bytes, so replacing a span with a longer or shorter string never
corrupts the text or the offsets of spans strictly before it.  When every
correction equals its span's text the result is the original text with an
empty change list. -/
theorem apply_corrections_splices_at_span_ranges
    (text : List Char) (contexts : List CitationContext) (cors : List CitationCorrection)
    (hchain : ChainBounded text.length 0 contexts)
    (hslice : ∀ ctx ∈ contexts, ctx.original = jsSlice text ctx.start ctx.stop)
    (_hids : (contexts.map (·.id)).Nodup)
    (hcover : ∀ ctx ∈ contexts, ∃ c ∈ cors, c.id = (ctx.id : ℚ))
    (hknown : ∀ c ∈ cors, ∃ ctx ∈ contexts, (ctx.id : ℚ) = c.id) :
    applyCorrections text contexts cors =
      .ok (splicedSpec text cors 0 contexts, changesSpec cors contexts) ∧
    ((∀ ctx ∈ contexts, repOf cors ctx = ctx.original) →
      applyCorrections text contexts cors = .ok (text, [])) := by
  refine ⟨applyCorrections_eq text contexts cors hchain hslice hcover hknown, fun hno => ?_⟩
  rw [applyCorrections_eq text contexts cors hchain hslice hcover hknown,
    splicedSpec_noop text cors contexts 0 (Nat.zero_le _) hchain hslice hno,
    List.drop_zero]
  unfold changesSpec
  rw [changePairs_noop hno]
  rfl

def wText : List Char := "a Id. b".data

def wCtxs : List CitationContext :=
  [⟨0, "Id.".data, "a ".data, " b".data, 2, 5⟩]

def wCors : List CitationCorrection :=
  [⟨(0 : ℚ), "*Id.*".data⟩]

theorem apply_corrections_splices_at_span_ranges_witness :
    (applyCorrections wText wCtxs wCors =
      .ok (splicedSpec wText wCors 0 wCtxs, changesSpec wCors wCtxs) ∧
    ((∀ ctx ∈ wCtxs, repOf wCors ctx = ctx.original) →
      applyCorrections wText wCtxs wCors = .ok (wText, []))) ∧
    splicedSpec wText wCors 0 wCtxs = "a *Id.* b".data :=
  ⟨apply_corrections_splices_at_span_ranges wText wCtxs wCors
      (by decide) (by decide) (by decide) (by decide) (by decide),
    by decide⟩

/-! ## Claim C7 -/

/-- **C7.** For every valid input to `applyCorrections`, the returned change
list is strictly ascending by `position` (the changed span's start offset in
the original text), regardless of the internal descending splice order. -/
theorem apply_corrections_changes_ascending
    (text : List Char) (contexts : List CitationContext) (cors : List CitationCorrection)
    (hchain : ChainBounded text.length 0 contexts)
    (hslice : ∀ ctx ∈ contexts, ctx.original = jsSlice text ctx.start ctx.stop)
    (hcover : ∀ ctx ∈ contexts, ∃ c ∈ cors, c.id = (ctx.id : ℚ))
    (hknown : ∀ c ∈ cors, ∃ ctx ∈ contexts, (ctx.id : ℚ) = c.id)
    {res : List Char} {audit : List Correction}
    (hok : applyCorrections text contexts cors = .ok (res, audit)) :
    audit.Pairwise (fun a b => a.position < b.position) := by
  rw [applyCorrections_eq text contexts cors hchain hslice hcover hknown] at hok
  cases hok
  unfold changesSpec
  exact List.pairwise_map.mpr
    ((pairwise_changePairs cors (chainBounded_pairwise_lt hchain)).imp (fun h => h))

def wCtxs₂ : List CitationContext :=
  [⟨0, "Id.".data, "a ".data, "".data, 2, 5⟩, ⟨1, "b".data, "".data, "".data, 6, 7⟩]

def wCors₂ : List CitationCorrection :=
  [⟨(0 : ℚ), "*Id.*".data⟩, ⟨(1 : ℚ), "c".data⟩]

def wAudit₂ : List Correction :=
  [⟨2, "Id.".data, "*Id.*".data,
      mkSnippet ⟨0, "Id.".data, "a ".data, "".data, 2, 5⟩ ("*Id.*".data)⟩,
   ⟨6, "b".data, "c".data,
      mkSnippet ⟨1, "b".data, "".data, "".data, 6, 7⟩ ("c".data)⟩]

theorem apply_corrections_changes_ascending_witness :
    applyCorrections wText wCtxs₂ wCors₂ = .ok ("a *Id.* c".data, wAudit₂) ∧
      wAudit₂.Pairwise (fun a b => a.position < b.position) :=
  have h : applyCorrections wText wCtxs₂ wCors₂ = .ok ("a *Id.* c".data, wAudit₂) := by decide
  ⟨h, apply_corrections_changes_ascending wText wCtxs₂ wCors₂
    (by decide) (by decide) (by decide) (by decide) h⟩

/-! ## Pipeline lemmas (batching, tracing, failure propagation) -/

theorem chunks_length {α : Type} (B : Nat) (l : List α) :
    (chunks B l).length = (l.length + B - 1) / B := by
  simp [chunks]

theorem chunks_get {α : Type} (B : Nat) (l : List α) (i : Nat)
    (hi : i < (chunks B l).length) :
    (chunks B l).get ⟨i, hi⟩ = (l.drop (i * B)).take B := by
  simp [chunks]

theorem chunks_nil {α : Type} (B : Nat) : chunks B ([] : List α) = [] := by
  rcases B with _ | B
  · simp [chunks]
  · simp [chunks, Nat.div_eq_of_lt (Nat.lt_succ_self B)]

/-- On a successful run the batch loop sends exactly one request per batch,
in batch order. -/
theorem runBatches_ok_trace (llm : List Msg → Except (List Char) (List Char))
    (rules : Option (List Char)) :
    ∀ (bs : List (List CitationContext)),
      (runBatches llm rules bs).1.isOk →
      (runBatches llm rules bs).2 = bs.map (fun b => buildMessages b rules) := by
  intro bs
  induction bs with
  | nil => intro _; rfl
  | cons b bs ih =>
    intro hok
    rcases hstep : batchStep llm rules b with e | cs
    · rw [runBatches, hstep] at hok
      simp [Except.isOk, Except.toBool] at hok
    · rw [runBatches, hstep] at hok ⊢
      dsimp only at hok ⊢
      rcases h1 : (runBatches llm rules bs).1 with e | cors
      · rw [h1] at hok
        simp [Except.map, Except.isOk, Except.toBool] at hok
      · rw [List.map_cons, ih (by rw [h1]; rfl)]

/-- If every batch before `b` succeeds and `b` itself fails, the whole loop
fails with `b`'s error. -/
theorem runBatches_first_error (llm : List Msg → Except (List Char) (List Char))
    (rules : Option (List Char)) {e : BBError} :
    ∀ (pre : List (List CitationContext)) (b : List CitationContext)
      (post : List (List CitationContext)),
      (∀ x ∈ pre, ∃ cs, batchStep llm rules x = .ok cs) →
      batchStep llm rules b = .error e →
      (runBatches llm rules (pre ++ b :: post)).1 = .error e := by
  intro pre
  induction pre with
  | nil =>
    intro b post _ hb
    rw [List.nil_append, runBatches, hb]
  | cons x xs ih =>
    intro b post hpre hb
    rcases hpre x (List.mem_cons_self x xs) with ⟨cs, hx⟩
    rw [List.cons_append, runBatches, hx]
    dsimp only
    rw [ih b post (fun y hy => hpre y (List.mem_cons_of_mem x hy)) hb]
    rfl

/-- A failing batch loop fails the whole pipeline run: the returned result
is the error and no corrected text is produced. -/
theorem bluebookify_propagates_batch_error (text : List Char) (cs B : Nat)
    (rules : Option (List Char)) (llm : List Msg → Except (List Char) (List Char))
    (ms sigs : List PatternMatch) {e : BBError}
    (hne : extractCitationsFrom text cs ms sigs ≠ [])
    (he : (runBatches llm rules (chunks B (extractCitationsFrom text cs ms sigs))).1 = .error e) :
    (bluebookifyModel text cs B rules llm ms sigs).1 = .error e := by
  unfold bluebookifyModel
  rw [if_neg (by simpa using hne)]
  dsimp only
  rw [he]

/-! ## Claim C2 -/

/-- **C2.** For every input text with zero extracted spans, the pipeline
never invokes the oracle (the request trace is empty) and returns the
original text unchanged with an empty corrections list and
`unchanged = true`. -/
theorem pipeline_short_circuits_without_spans (text : List Char) (cs B : Nat)
    (rules : Option (List Char)) (llm : List Msg → Except (List Char) (List Char))
    (ms sigs : List PatternMatch)
    (h : extractCitationsFrom text cs ms sigs = []) :
    bluebookifyModel text cs B rules llm ms sigs = (.ok ⟨text, [], true⟩, []) := by
  unfold bluebookifyModel
  rw [if_pos (by rw [h]; rfl)]

theorem pipeline_short_circuits_without_spans_witness :
    bluebookifyModel ("hello world".data) 100 20 none (fun _ => .ok ("[]".data)) [] []
      = (.ok ⟨"hello world".data, [], true⟩, []) :=
  pipeline_short_circuits_without_spans ("hello world".data) 100 20 none
    (fun _ => .ok ("[]".data)) [] [] (by decide)

/-! ## Claim C3 -/

/-- **C3.** On a completed run over `N` extracted spans with batch size `B`,
the pipeline makes exactly `⌈N/B⌉` oracle calls, sequentially in original
span order: the `i`-th call carries exactly the messages built for the spans
with indices in `[i·B, min((i+1)·B, N))`, so its data message contains
exactly those spans' ids and no others. -/
theorem pipeline_batches_spans_in_order (text : List Char) (cs B : Nat)
    (rules : Option (List Char)) (llm : List Msg → Except (List Char) (List Char))
    (ms sigs : List PatternMatch) (r : BluebookifyResult) (trace : List (List Msg))
    (hB : 1 ≤ B)
    (hok : bluebookifyModel text cs B rules llm ms sigs = (.ok r, trace)) :
    trace.length = ((extractCitationsFrom text cs ms sigs).length + B - 1) / B ∧
    ∀ i (hi : i < trace.length),
      trace.get ⟨i, hi⟩ =
        buildMessages (((extractCitationsFrom text cs ms sigs).drop (i * B)).take B) rules ∧
      (((extractCitationsFrom text cs ms sigs).drop (i * B)).take B).map (·.id)
        = (((extractCitationsFrom text cs ms sigs).map (·.id)).drop (i * B)).take B := by
  unfold bluebookifyModel at hok
  by_cases hemp : (extractCitationsFrom text cs ms sigs).isEmpty
  · rw [if_pos hemp] at hok
    cases hok
    have hlen : (extractCitationsFrom text cs ms sigs).length = 0 := by
      rwa [List.isEmpty_iff_length_eq_zero] at hemp
    refine ⟨?_, fun i hi => absurd hi (by simp)⟩
    rw [hlen, List.length_nil]
    simp only [Nat.zero_add]
    exact (Nat.div_eq_of_lt (by omega)).symm
  · rw [if_neg hemp] at hok
    dsimp only at hok
    rcases h1 : (runBatches llm rules (chunks B (extractCitationsFrom text cs ms sigs))).1
      with e | cors
    · rw [h1] at hok; cases hok
    · rw [h1] at hok
      dsimp only at hok
      have htrace :
          (runBatches llm rules (chunks B (extractCitationsFrom text cs ms sigs))).2 =
            (chunks B (extractCitationsFrom text cs ms sigs)).map
              (fun b => buildMessages b rules) :=
        runBatches_ok_trace llm rules _ (by rw [h1]; rfl)
      have htr : trace =
          (chunks B (extractCitationsFrom text cs ms sigs)).map
            (fun b => buildMessages b rules) := by
        rcases h2 : applyCorrections text (extractCitationsFrom text cs ms sigs) cors
          with e | res
        · rw [h2] at hok; cases hok
        · rw [h2] at hok
          cases hok
          exact htrace
      subst htr
      constructor
      · rw [List.length_map, chunks_length]
      · intro i hi
        have hi' : i < (chunks B (extractCitationsFrom text cs ms sigs)).length := by
          simpa using hi
        refine ⟨?_, by simp⟩
        rw [List.get_map, chunks_get]

set_option maxRecDepth 40000 in
theorem pipeline_batches_spans_in_order_witness :
    ([buildMessages [⟨0, "Id.".data, [], [], 0, 3⟩] none].length
        = ((extractCitationsFrom ("Id.".data) 0 [⟨"Id.".data, 0, 3⟩] []).length + 1 - 1) / 1) ∧
    ∀ i (hi : i < [buildMessages [⟨0, "Id.".data, [], [], 0, 3⟩] none].length),
      [buildMessages [⟨0, "Id.".data, [], [], 0, 3⟩] none].get ⟨i, hi⟩ =
        buildMessages
          (((extractCitationsFrom ("Id.".data) 0 [⟨"Id.".data, 0, 3⟩] []).drop (i * 1)).take 1)
          none ∧
      (((extractCitationsFrom ("Id.".data) 0 [⟨"Id.".data, 0, 3⟩] []).drop (i * 1)).take 1).map
          (·.id)
        = (((extractCitationsFrom ("Id.".data) 0 [⟨"Id.".data, 0, 3⟩] []).map (·.id)).drop
            (i * 1)).take 1 :=
  pipeline_batches_spans_in_order ("Id.".data) 0 1 none
    (fun _ => .ok ("[\x7b\"id\":0,\"citation\":\"Id.\"\x7d]".data))
    [⟨"Id.".data, 0, 3⟩] [] ⟨"Id.".data, [], true⟩
    [buildMessages [⟨0, "Id.".data, [], [], 0, 3⟩] none]
    (by decide) (by decide)

/-! ## Claim C4 -/

/-- If the reply contains an id foreign to the batch, `validateBatchIds`
fails with `unexpectedBatchId` naming such an id. -/
theorem validateBatchIds_foreign (cors : List CitationCorrection) (expected : List Nat)
    (hforeign : ∃ c ∈ cors, ∀ n ∈ expected, (n : ℚ) ≠ c.id) :
    ∃ q, validateBatchIds cors expected = .error (.unexpectedBatchId q) ∧
      (∃ c ∈ cors, c.id = q) ∧ ∀ n ∈ expected, (n : ℚ) ≠ q := by
  unfold validateBatchIds
  split
  case _ c₀ hfind =>
    have hmem := List.mem_of_find?_eq_some hfind
    have hpred := List.find?_some hfind
    simp only [Bool.not_eq_true', List.any_eq_false] at hpred
    exact ⟨c₀.id, rfl, ⟨c₀, hmem, rfl⟩, fun n hn => by simpa using hpred n hn⟩
  case _ hfind =>
    exfalso
    rcases hforeign with ⟨c, hc, hcn⟩
    have h2 : ∃ n ∈ expected, (n : ℚ) = c.id := by
      simpa using List.find?_eq_none.mp hfind c hc
    rcases h2 with ⟨n, hn, hid⟩
    exact hcn n hn hid

/-- If the reply covers only batch ids but omits one, `validateBatchIds`
fails with `missingBatchId` naming such an id. -/
theorem validateBatchIds_missing (cors : List CitationCorrection) (expected : List Nat)
    (hall : ∀ c ∈ cors, ∃ n ∈ expected, (n : ℚ) = c.id)
    (hmiss : ∃ n ∈ expected, ∀ c ∈ cors, c.id ≠ (n : ℚ)) :
    ∃ n, validateBatchIds cors expected = .error (.missingBatchId n) ∧
      n ∈ expected ∧ ∀ c ∈ cors, c.id ≠ (n : ℚ) := by
  unfold validateBatchIds
  split
  case _ c₀ hfind =>
    exfalso
    have hpred := List.find?_some hfind
    have hmem := List.mem_of_find?_eq_some hfind
    rcases hall c₀ hmem with ⟨n, hn, hid⟩
    simp only [Bool.not_eq_true', List.any_eq_false] at hpred
    exact absurd (by simpa using hid) (by simpa using hpred n hn)
  case _ =>
    split
    case _ n₀ hfind =>
      have hmem := List.mem_of_find?_eq_some hfind
      have hpred := List.find?_some hfind
      simp only [Bool.not_eq_true', List.any_eq_false] at hpred
      exact ⟨n₀, rfl, hmem, fun c hc => by simpa using hpred c hc⟩
    case _ hfind =>
      exfalso
      rcases hmiss with ⟨n, hn, hnc⟩
      have h2 : ∃ c ∈ cors, c.id = (n : ℚ) := by
        simpa using List.find?_eq_none.mp hfind n hn
      rcases h2 with ⟨c, hc, hid⟩
      exact hnc c hc hid

/-- If the parsed reply contains an id foreign to the batch, the batch step
fails with `unexpectedBatchId` naming such an id. -/
theorem batchStep_foreign_id (llm : List Msg → Except (List Char) (List Char))
    (rules : Option (List Char)) (batch : List CitationContext)
    (reply : List Char) (cors : List CitationCorrection)
    (hreply : llm (buildMessages batch rules) = .ok reply)
    (hparse : parseResponse reply = .ok cors)
    (hforeign : ∃ c ∈ cors, ∀ n ∈ idsOf batch, (n : ℚ) ≠ c.id) :
    ∃ q, batchStep llm rules batch = .error (.unexpectedBatchId q) ∧
      (∃ c ∈ cors, c.id = q) ∧ ∀ n ∈ idsOf batch, (n : ℚ) ≠ q := by
  rcases validateBatchIds_foreign cors (idsOf batch) hforeign with ⟨q, hq, hprops⟩
  refine ⟨q, ?_, hprops⟩
  unfold batchStep
  rw [hreply]
  dsimp only
  rw [hparse]
  dsimp only [Except.bind]
  rw [hq]
  rfl

/-- If the parsed reply covers only batch ids but omits one, the batch step
fails with `missingBatchId` naming such an id. -/
theorem batchStep_missing_id (llm : List Msg → Except (List Char) (List Char))
    (rules : Option (List Char)) (batch : List CitationContext)
    (reply : List Char) (cors : List CitationCorrection)
    (hreply : llm (buildMessages batch rules) = .ok reply)
    (hparse : parseResponse reply = .ok cors)
    (hall : ∀ c ∈ cors, ∃ n ∈ idsOf batch, (n : ℚ) = c.id)
    (hmiss : ∃ n ∈ idsOf batch, ∀ c ∈ cors, c.id ≠ (n : ℚ)) :
    ∃ n, batchStep llm rules batch = .error (.missingBatchId n) ∧
      n ∈ idsOf batch ∧ ∀ c ∈ cors, c.id ≠ (n : ℚ) := by
  rcases validateBatchIds_missing cors (idsOf batch) hall hmiss with ⟨n, hq, hprops⟩
  refine ⟨n, ?_, hprops⟩
  unfold batchStep
  rw [hreply]
  dsimp only
  rw [hparse]
  dsimp only [Except.bind]
  rw [hq]
  rfl

/-- **C4.** For every batch: after any prefix of successful batches, if the
parsed oracle reply for the batch contains a correction id not in the
batch's id set, the whole run fails with `unexpectedBatchId` naming such an
id; and if every reply id is in the batch but some batch id has no
correction, the whole run fails with `missingBatchId` naming such an id.
In both cases the pipeline's result is the error — no corrections from the
failing batch (nor any other) are ever applied to the text. -/
theorem batch_id_mismatch_fails_run (text : List Char) (cs B : Nat)
    (rules : Option (List Char)) (llm : List Msg → Except (List Char) (List Char))
    (ms sigs : List PatternMatch)
    (pre : List (List CitationContext)) (b : List CitationContext)
    (post : List (List CitationContext)) (reply : List Char)
    (cors : List CitationCorrection)
    (hsplit : chunks B (extractCitationsFrom text cs ms sigs) = pre ++ b :: post)
    (hpre : ∀ x ∈ pre, ∃ cs', batchStep llm rules x = .ok cs')
    (hreply : llm (buildMessages b rules) = .ok reply)
    (hparse : parseResponse reply = .ok cors) :
    ((∃ c ∈ cors, ∀ n ∈ idsOf b, (n : ℚ) ≠ c.id) →
      ∃ q, (bluebookifyModel text cs B rules llm ms sigs).1 =
          .error (.unexpectedBatchId q) ∧
        (∃ c ∈ cors, c.id = q) ∧ ∀ n ∈ idsOf b, (n : ℚ) ≠ q) ∧
    ((∀ c ∈ cors, ∃ n ∈ idsOf b, (n : ℚ) = c.id) →
      (∃ n ∈ idsOf b, ∀ c ∈ cors, c.id ≠ (n : ℚ)) →
      ∃ n, (bluebookifyModel text cs B rules llm ms sigs).1 =
          .error (.missingBatchId n) ∧
        n ∈ idsOf b ∧ ∀ c ∈ cors, c.id ≠ (n : ℚ)) := by
  have hne : extractCitationsFrom text cs ms sigs ≠ [] := by
    intro h0
    rw [h0, chunks_nil] at hsplit
    exact List.cons_ne_nil b post (List.append_eq_nil.mp hsplit.symm).2
  constructor
  · intro hforeign
    rcases batchStep_foreign_id llm rules b reply cors hreply hparse hforeign
      with ⟨q, herr, hq⟩
    refine ⟨q, ?_, hq⟩
    exact bluebookify_propagates_batch_error text cs B rules llm ms sigs hne
      (by rw [hsplit]; exact runBatches_first_error llm rules pre b post hpre herr)
  · intro hall hmiss
    rcases batchStep_missing_id llm rules b reply cors hreply hparse hall hmiss
      with ⟨n, herr, hq⟩
    refine ⟨n, ?_, hq⟩
    exact bluebookify_propagates_batch_error text cs B rules llm ms sigs hne
      (by rw [hsplit]; exact runBatches_first_error llm rules pre b post hpre herr)

def wBatch₄ : List CitationContext := [⟨0, "Id.".data, [], [], 0, 3⟩]

def wLlmA : List Msg → Except (List Char) (List Char) :=
  fun _ => .ok ("[\x7b\"id\":7,\"citation\":\"x\"\x7d]".data)

def wLlmB : List Msg → Except (List Char) (List Char) :=
  fun _ => .ok ("[]".data)

set_option maxRecDepth 40000 in
theorem batch_id_mismatch_fails_run_witness :
    (∃ q, (bluebookifyModel ("Id.".data) 0 1 none wLlmA [⟨"Id.".data, 0, 3⟩] []).1 =
        .error (.unexpectedBatchId q) ∧
      (∃ c ∈ [(⟨(7 : ℚ), "x".data⟩ : CitationCorrection)], c.id = q) ∧
      ∀ n ∈ idsOf wBatch₄, (n : ℚ) ≠ q) ∧
    (∃ n, (bluebookifyModel ("Id.".data) 0 1 none wLlmB [⟨"Id.".data, 0, 3⟩] []).1 =
        .error (.missingBatchId n) ∧
      n ∈ idsOf wBatch₄ ∧ ∀ c ∈ ([] : List CitationCorrection), c.id ≠ (n : ℚ)) :=
  ⟨(batch_id_mismatch_fails_run ("Id.".data) 0 1 none wLlmA [⟨"Id.".data, 0, 3⟩] []
      [] wBatch₄ [] ("[\x7b\"id\":7,\"citation\":\"x\"\x7d]".data)
      [⟨(7 : ℚ), "x".data⟩]
      (by decide) (by simp) (by decide) (by decide)).1 (by decide),
   (batch_id_mismatch_fails_run ("Id.".data) 0 1 none wLlmB [⟨"Id.".data, 0, 3⟩] []
      [] wBatch₄ [] ("[]".data) []
      (by decide) (by simp) (by decide) (by decide)).2 (by simp) (by decide)⟩

/-! ## Claim C6 -/

/-- One reply element passes the shape-and-content checks: it is an object
whose `id` is a number and whose `citation` is a non-blank string. -/
def goodItem (v : JsonVal) : Prop :=
  ∃ c, asCorrection v = some c ∧ jsTrim c.citation ≠ []

instance (v : JsonVal) : Decidable (goodItem v) :=
  match h : asCorrection v with
  | none => .isFalse (by rintro ⟨c, hc, -⟩; rw [h] at hc; cases hc)
  | some c =>
    if hc : jsTrim c.citation = [] then
      .isFalse (by rintro ⟨c', hc', hne⟩; rw [h] at hc'; cases hc'; exact hne hc)
    else .isTrue ⟨c, h, hc⟩

def GoodItems (l : List JsonVal) : Prop := ∀ v ∈ l, goodItem v

instance (l : List JsonVal) : Decidable (GoodItems l) := by
  unfold GoodItems; infer_instance

/-- The ids of the well-shaped elements, in array order. -/
def itemIds (l : List JsonVal) : List ℚ :=
  l.filterMap (fun v => (asCorrection v).map (·.id))

theorem length_filterMap_asCorrection {l : List JsonVal} (h : GoodItems l) :
    (l.filterMap asCorrection).length = l.length := by
  induction l with
  | nil => rfl
  | cons v vs ih =>
    rcases h v (List.mem_cons_self v vs) with ⟨c, hc, -⟩
    rw [List.filterMap_cons, hc]
    simp [ih (fun y hy => h y (List.mem_cons_of_mem v hy))]

/-- Running the element-validation loop across a clean prefix: the prefix
contributes its records in order, the index advances by its length and the
seen-set gains its ids. -/
theorem validateItems_clean_prefix :
    ∀ (pre rest : List JsonVal) (idx : Nat) (seen : List ℚ),
      GoodItems pre →
      (itemIds pre).Nodup →
      (∀ q ∈ itemIds pre, seen.contains q = false) →
      validateItems (pre ++ rest) idx seen =
        (validateItems rest (idx + pre.length) ((itemIds pre).reverse ++ seen)).map
          (fun l => pre.filterMap asCorrection ++ l) := by
  intro pre
  induction pre with
  | nil =>
    intro rest idx seen _ _ _
    rcases h : validateItems rest (idx + 0) ((itemIds []).reverse ++ seen) with e | l
    · simp [itemIds] at h
      simp [itemIds, h, Except.map]
    · simp [itemIds] at h
      simp [itemIds, h, Except.map]
  | cons x pre ih =>
    intro rest idx seen hgood hnodup hseen
    rcases hgood x (List.mem_cons_self x pre) with ⟨c, hc, hne⟩
    have hids : itemIds (x :: pre) = c.id :: itemIds pre := by
      rw [itemIds, List.filterMap_cons, hc]
      rfl
    have hcid : seen.contains c.id = false := by
      refine hseen c.id ?_
      rw [hids]
      exact List.mem_cons_self _ _
    rw [List.cons_append, validateItems, hc]
    dsimp only
    rw [if_neg (by simpa using hne), if_neg (by rw [hcid]; simp)]
    rw [hids] at hnodup
    have hrec := ih rest (idx + 1) (c.id :: seen)
      (fun y hy => hgood y (List.mem_cons_of_mem x hy))
      hnodup.of_cons
      (by
        intro q hq
        have hqc : q ≠ c.id := fun h => (List.nodup_cons.mp hnodup).1 (h ▸ hq)
        have h3 : q ∉ seen := by
          simpa using hseen q (by rw [hids]; exact List.mem_cons_of_mem _ hq)
        simp [hqc, h3])
    rw [hrec]
    rw [List.filterMap_cons, hc, hids]
    rcases hv : validateItems rest (idx + 1 + pre.length) ((itemIds pre).reverse ++ (c.id :: seen))
      with e | l
    · rw [show idx + 1 + pre.length = idx + (x :: pre).length by simp; omega,
        show (itemIds pre).reverse ++ (c.id :: seen)
            = (c.id :: itemIds pre).reverse ++ seen by simp] at hv
      rw [hv]
      rfl
    · rw [show idx + 1 + pre.length = idx + (x :: pre).length by simp; omega,
        show (itemIds pre).reverse ++ (c.id :: seen)
            = (c.id :: itemIds pre).reverse ++ seen by simp] at hv
      rw [hv]
      rfl

/-- **C6 (amended).**  For every parsed reply array, `parseResponse` fails
with a distinct, identifiable error whenever any element (after any clean
prefix) is not an object with a numeric `id` and a string `citation`
(`invalidCorrection`, naming the index), has an empty or whitespace-only
replacement (`emptyCitation`, naming index and id), or repeats an earlier id
(`duplicateId`, naming id and index); otherwise it returns exactly one
correction per element, in array order.  (The original claim's
"non-integer id" is amended to "non-number id": a fractional numeric id
passes the parser — see the counterexample — and is only caught by the
later batch-id validation.) -/
theorem parse_response_element_validation (r : List Char) (items : List JsonVal)
    (hx : extractItems (cleanResponse r) = .ok items) :
    (∀ pre x suf, items = pre ++ x :: suf → GoodItems pre → (itemIds pre).Nodup →
        asCorrection x = none →
        parseResponse r = .error (.invalidCorrection pre.length)) ∧
    (∀ pre x suf c, items = pre ++ x :: suf → GoodItems pre → (itemIds pre).Nodup →
        asCorrection x = some c → jsTrim c.citation = [] →
        parseResponse r = .error (.emptyCitation pre.length c.id)) ∧
    (∀ pre x suf c, items = pre ++ x :: suf → GoodItems pre → (itemIds pre).Nodup →
        asCorrection x = some c → jsTrim c.citation ≠ [] → c.id ∈ itemIds pre →
        parseResponse r = .error (.duplicateId c.id pre.length)) ∧
    (GoodItems items → (itemIds items).Nodup →
        parseResponse r = .ok (items.filterMap asCorrection) ∧
        (items.filterMap asCorrection).length = items.length) := by
  have hbase : parseResponse r = validateItems items 0 [] := by
    unfold parseResponse
    rw [hx]
    rfl
  have hpref : ∀ pre rest, items = pre ++ rest → GoodItems pre → (itemIds pre).Nodup →
      parseResponse r =
        (validateItems rest pre.length ((itemIds pre).reverse)).map
          (fun l => pre.filterMap asCorrection ++ l) := by
    intro pre rest hsplit hgood hnodup
    rw [hbase, hsplit, validateItems_clean_prefix pre rest 0 [] hgood hnodup (by simp)]
    simp
  refine ⟨?_, ?_, ?_, ?_⟩
  · intro pre x suf hsplit hgood hnodup hbad
    rw [hpref pre (x :: suf) hsplit hgood hnodup, validateItems, hbad]
    rfl
  · intro pre x suf c hsplit hgood hnodup hc hempty
    rw [hpref pre (x :: suf) hsplit hgood hnodup, validateItems, hc]
    dsimp only
    rw [if_pos hempty]
    rfl
  · intro pre x suf c hsplit hgood hnodup hc hne hdup
    rw [hpref pre (x :: suf) hsplit hgood hnodup, validateItems, hc]
    dsimp only
    rw [if_neg (by simpa using hne),
      if_pos (by simpa using List.mem_reverse.mpr hdup)]
    rfl
  · intro hgood hnodup
    refine ⟨?_, length_filterMap_asCorrection hgood⟩
    rw [hpref items [] (by simp) hgood hnodup]
    simp [validateItems, Except.map]

/-- Counterexample to C6 as stated: an element whose id is the non-integer
number `1.5` is accepted by `parseResponse` (the code only checks
`typeof id === "number"`), so "a non-integer id" does not produce a parse
failure. -/
theorem parse_response_accepts_fractional_id :
    parseResponse ("[\x7b\"id\":1.5,\"citation\":\"x\"\x7d]".data)
      = .ok [⟨Rat.divInt 3 2, "x".data⟩] ∧ (Rat.divInt 3 2).den ≠ 1 := by
  decide

def wItemEmpty : JsonVal := .jobj [("id".data, .jnum 1), ("citation".data, .jstr " ".data)]

def wItemA : JsonVal := .jobj [("id".data, .jnum 1), ("citation".data, .jstr "a".data)]

def wItemB : JsonVal := .jobj [("id".data, .jnum 1), ("citation".data, .jstr "b".data)]

def wItem0 : JsonVal := .jobj [("id".data, .jnum 0), ("citation".data, .jstr "a".data)]

theorem parse_response_element_validation_witness :
    parseResponse ("[\"x\"]".data) = .error (.invalidCorrection 0) ∧
    parseResponse ("[\x7b\"id\":1,\"citation\":\" \"\x7d]".data)
      = .error (.emptyCitation 0 1) ∧
    parseResponse ("[\x7b\"id\":1,\"citation\":\"a\"\x7d,\x7b\"id\":1,\"citation\":\"b\"\x7d]".data)
      = .error (.duplicateId 1 1) ∧
    parseResponse ("[\x7b\"id\":0,\"citation\":\"a\"\x7d]".data)
      = .ok [⟨0, "a".data⟩] :=
  ⟨(parse_response_element_validation ("[\"x\"]".data) [.jstr "x".data] (by decide)).1
      [] (.jstr "x".data) [] rfl (by decide) (by decide) (by decide),
   (parse_response_element_validation ("[\x7b\"id\":1,\"citation\":\" \"\x7d]".data)
      [wItemEmpty] (by decide)).2.1
      [] wItemEmpty [] ⟨1, " ".data⟩ rfl (by decide) (by decide) (by decide) (by decide),
   (parse_response_element_validation
      ("[\x7b\"id\":1,\"citation\":\"a\"\x7d,\x7b\"id\":1,\"citation\":\"b\"\x7d]".data)
      [wItemA, wItemB] (by decide)).2.2.1
      [wItemA] wItemB [] ⟨1, "b".data⟩ rfl (by decide) (by decide) (by decide)
      (by decide) (by decide),
   ((parse_response_element_validation ("[\x7b\"id\":0,\"citation\":\"a\"\x7d]".data)
      [wItem0] (by decide)).2.2.2 (by decide) (by decide)).1⟩

/-! ## Claim C5 -/

/-- Does an optional JSON value hold an array? -/
def isArr : Option JsonVal → Bool
  | some (.jarr _) => true
  | _ => false

theorem dropWhile_eq_self_of_head (p : Char → Bool) (c : Char) {s : List Char}
    (hc : s.head? = some c) (hpc : p c = false) : s.dropWhile p = s := by
  cases s with
  | nil => cases hc
  | cons a t =>
    have ha : a = c := by simpa using hc
    subst ha
    simp [List.dropWhile_cons, hpc]

theorem takeWhile_eq_nil_of_head (p : Char → Bool) (c : Char) {s : List Char}
    (hc : s.head? = some c) (hpc : p c = false) : s.takeWhile p = [] := by
  cases s with
  | nil => rfl
  | cons a t =>
    have ha : a = c := by simpa using hc
    subst ha
    simp [List.takeWhile_cons, hpc]

/-- `trim` is the identity on a string with non-whitespace first and last
characters. -/
theorem jsTrim_eq_self (a b : Char) {s : List Char}
    (hh : s.head? = some a) (h1 : jsWs a = false)
    (hl : s.getLast? = some b) (h2 : jsWs b = false) : jsTrim s = s := by
  unfold jsTrim
  rw [dropWhile_eq_self_of_head jsWs a hh h1,
    dropWhile_eq_self_of_head jsWs b (by rw [List.head?_reverse]; exact hl) h2,
    List.reverse_reverse]

theorem stripLeadingFence_eq_self {s : List Char} (hh : s.head? = some '[') :
    stripLeadingFence s = s := by
  cases s with
  | nil => cases hh
  | cons a t =>
    have ha : a = '[' := by simpa using hh
    subst ha
    unfold stripLeadingFence
    rw [if_neg (by simp)]

theorem stripTrailingFence_eq_self {s : List Char} (hl : s.getLast? = some ']') :
    stripTrailingFence s = s := by
  obtain ⟨rest, hrest⟩ : ∃ rest, s.reverse = ']' :: rest := by
    rcases hrev : s.reverse with _ | ⟨a, rest⟩
    · rw [← List.head?_reverse, hrev] at hl; cases hl
    · rw [← List.head?_reverse, hrev] at hl
      have ha : a = ']' := by simpa using hl
      exact ⟨rest, by rw [ha]⟩
  unfold stripTrailingFence
  rw [takeWhile_eq_nil_of_head jsWs ']' (by rw [List.head?_reverse]; exact hl) (by decide)]
  simp only [List.length_nil, Nat.sub_zero, List.take_length]
  rw [if_neg (by rw [hrest]; simp)]

/-- The whole `cleaned` computation is the identity on a trimmed string that
starts with `[` and ends with `]`. -/
theorem cleanResponse_eq_self {s : List Char}
    (hh : s.head? = some '[') (hl : s.getLast? = some ']') : cleanResponse s = s := by
  unfold cleanResponse
  rw [jsTrim_eq_self '[' ']' hh (by decide) hl (by decide), stripLeadingFence_eq_self hh,
    stripTrailingFence_eq_self hl, jsTrim_eq_self '[' ']' hh (by decide) hl (by decide)]

/-- When the cleaned reply itself strictly parses as an array,
`parseResponse` validates exactly those elements. -/
theorem parseResponse_of_strict {s : List Char} {items : List JsonVal}
    (hs : jsonParse s = some (.jarr items)) (hclean : cleanResponse s = s) :
    parseResponse s = validateItems items 0 [] := by
  unfold parseResponse
  rw [hclean]
  unfold extractItems
  rw [hs]
  rfl

theorem stripLeadingFence_fenced {s : List Char} (hh : s.head? = some '[') :
    stripLeadingFence (("```json\n".data ++ s) ++ "\n```".data) = s ++ "\n```".data := by
  cases s with
  | nil => cases hh
  | cons a t =>
    have ha : a = '[' := by simpa using hh
    subst ha
    rfl

theorem stripTrailingFence_append_fence (s : List Char) :
    stripTrailingFence (s ++ ['\n', '`', '`', '`']) = s := by
  have h1 : (s ++ ['\n', '`', '`', '`']).reverse = '`' :: '`' :: '`' :: '\n' :: s.reverse := by
    rw [List.reverse_append]
    rfl
  have h2 : (s ++ ['\n', '`', '`', '`']).length = s.length + 4 := by
    rw [List.length_append]
    rfl
  unfold stripTrailingFence
  dsimp only
  rw [h1, takeWhile_eq_nil_of_head jsWs '`' (s := '`' :: '`' :: '`' :: '\n' :: s.reverse)
      rfl (by decide)]
  simp only [List.length_nil, Nat.sub_zero, List.take_length]
  rw [h1]
  have hcond : List.take 3 ('`' :: '`' :: '`' :: '\n' :: s.reverse) = ['`', '`', '`'] := rfl
  rw [if_pos hcond, h2]
  have h3 : s.length + 4 - 3 = s.length + 1 := by omega
  rw [h3]
  have h4 : (s ++ ['\n', '`', '`', '`']).take (s.length + 1) = s ++ ['\n'] := by
    rw [List.take_append]
    rfl
  rw [h4]
  have h5 : (s ++ ['\n']).reverse = '\n' :: s.reverse := by
    rw [List.reverse_append]
    rfl
  rw [h5]
  have hcond2 : List.take 1 ('\n' :: s.reverse) = ['\n'] := rfl
  rw [if_pos hcond2]
  have h6 : (s ++ ['\n']).length - 1 = s.length := by
    rw [List.length_append]
    rfl
  rw [h6, List.take_left]

theorem cleanResponse_fenced {s : List Char}
    (hh : s.head? = some '[') (hl : s.getLast? = some ']') :
    cleanResponse (("```json\n".data ++ s) ++ "\n```".data) = s := by
  unfold cleanResponse
  rw [jsTrim_eq_self '`' '`' (s := ("```json\n".data ++ s) ++ "\n```".data) rfl (by decide)
      (by rw [List.getLast?_append_of_ne_nil _ (by decide)]; rfl) (by decide),
    stripLeadingFence_fenced hh]
  have hB : s ++ "\n```".data = s ++ ['\n', '`', '`', '`'] := rfl
  rw [hB, stripTrailingFence_append_fence,
    jsTrim_eq_self '[' ']' hh (by decide) hl (by decide)]

/-- A string that strictly parses as an array and starts with `[` and ends
with `]` has at least two characters. -/
theorem two_le_length_of_brackets {s : List Char}
    (hh : s.head? = some '[') (hl : s.getLast? = some ']') : 2 ≤ s.length := by
  rcases s with _ | ⟨a, t⟩
  · cases hh
  · rcases t with _ | ⟨b, u⟩
    · have ha : a = '[' := by simpa using hh
      have hb : a = ']' := by simpa using hl
      rw [ha] at hb
      cases hb
    · simp

/-- `lastIndexOf("]")` on `p ++ s ++ q` where `s` ends with `]` and `q`
contains no `]`: the index of `s`'s final character. -/
theorem lastCloseIdx_concat {p s q : List Char}
    (hl : s.getLast? = some ']') (hq : ']' ∉ q) :
    lastCloseIdx (p ++ s ++ q) = some (p.length + s.length - 1) := by
  obtain ⟨rest, hrest⟩ : ∃ rest, s.reverse = ']' :: rest := by
    rcases hrev : s.reverse with _ | ⟨a, rest⟩
    · rw [← List.head?_reverse, hrev] at hl; cases hl
    · rw [← List.head?_reverse, hrev] at hl
      have ha : a = ']' := by simpa using hl
      exact ⟨rest, by rw [ha]⟩
  have hs1 : 1 ≤ s.length := by
    rcases s with _ | _
    · cases hl
    · simp
  unfold lastCloseIdx
  rw [List.reverse_append, List.reverse_append, List.findIdx?_append]
  have hqnone : q.reverse.findIdx? (fun x => x = ']') = none := by
    rw [List.findIdx?_eq_none_iff]
    intro x hx
    exact decide_eq_false (fun h => hq (h ▸ List.mem_reverse.mp hx))
  rw [hqnone, hrest]
  have hcons : ((']' :: rest) ++ p.reverse).findIdx? (fun x => x = ']') = some 0 := by
    rw [List.cons_append, List.findIdx?_cons]
    simp
  rw [hcons]
  simp only [Option.none_or, Option.map_some]
  have hgoal : (p ++ s ++ q).length - 1 - (0 + q.reverse.length) = p.length + s.length - 1 := by
    simp only [List.length_append, List.length_reverse]
    omega
  simp only [Option.map_some']
  rw [hgoal]

/-- The slice of `p ++ s ++ q` from `|p|` to `|p| + |s|` is `s`. -/
theorem jsSlice_middle (p s q : List Char) :
    jsSlice (p ++ s ++ q) p.length (p.length + s.length) = s := by
  unfold jsSlice
  rw [List.append_assoc, List.take_append, List.take_left, List.drop_left]

/-- The fallback scan skips over a block of indices whose candidates do not
parse as arrays. -/
theorem scanAux_skip (cleaned : List Char) (e : Nat) :
    ∀ (m i : Nat), i + m ≤ e →
      (∀ j, i ≤ j → j < i + m → cleaned.getD j ' ' = '[' →
        isArr (jsonParse (jsSlice cleaned j (e + 1))) = false) →
      scanAux cleaned e (e - i) i = scanAux cleaned e (e - (i + m)) (i + m) := by
  intro m
  induction m with
  | zero => intro i _ _; rfl
  | succ m ih =>
    intro i hle hfail
    have hrem : e - i = (e - (i + 1)) + 1 := by omega
    have hnext : i + (m + 1) = (i + 1) + m := by omega
    rw [hrem, hnext, scanAux]
    have hrec : scanAux cleaned e (e - (i + 1)) (i + 1)
        = scanAux cleaned e (e - ((i + 1) + m)) ((i + 1) + m) :=
      ih (i + 1) (by omega) (fun j h1 h2 => hfail j (by omega) (by omega))
    by_cases hbr : cleaned.getD i ' ' = '['
    · rw [if_pos hbr]
      have hfa := hfail i (le_refl i) (by omega) hbr
      rcases hj : jsonParse (jsSlice cleaned i (e + 1)) with _ | v
      · exact hrec
      · rcases v with _ | _ | _ | _ | xs | _
        · exact hrec
        · exact hrec
        · exact hrec
        · exact hrec
        · rw [hj] at hfa; simp [isArr] at hfa
        · exact hrec
    · rw [if_neg hbr]
      exact hrec

/-- If no candidate in range parses as an array, the fallback scan fails. -/
theorem scanAux_none (cleaned : List Char) (e : Nat) :
    ∀ (rem i : Nat), i + rem ≤ e →
      (∀ j, i ≤ j → j < e → cleaned.getD j ' ' = '[' →
        isArr (jsonParse (jsSlice cleaned j (e + 1))) = false) →
      scanAux cleaned e rem i = none := by
  intro rem
  induction rem with
  | zero => intro i _ _; rfl
  | succ rem ih =>
    intro i hle hfail
    rw [scanAux]
    have hrec : scanAux cleaned e rem (i + 1) = none :=
      ih (i + 1) (by omega) (fun j h1 h2 => hfail j (by omega) h2)
    by_cases hbr : cleaned.getD i ' ' = '['
    · rw [if_pos hbr]
      have hfa := hfail i (le_refl i) (by omega) hbr
      rcases hj : jsonParse (jsSlice cleaned i (e + 1)) with _ | v
      · exact hrec
      · rcases v with _ | _ | _ | _ | xs | _
        · exact hrec
        · exact hrec
        · exact hrec
        · exact hrec
        · rw [hj] at hfa; simp [isArr] at hfa
        · exact hrec
    · rw [if_neg hbr]
      exact hrec

/-- Reading `(p ++ t)` at index `|p|` reads the head of `t`. -/
theorem getD_append_length (p t : List Char) (d : Char) :
    (p ++ t).getD p.length d = t.getD 0 d := by
  induction p with
  | nil => rfl
  | cons a p ih =>
    simp only [List.cons_append, List.length_cons, List.getD_cons_succ]
    exact ih

/-- When strict parsing does not yield an array and no fallback candidate
slice (each `[` up to the last `]`) parses as an array, `extractItems`
reports `noJsonArray`. -/
theorem extractItems_no_array {cleaned : List Char}
    (hnoarr : isArr (jsonParse cleaned) = false)
    (hfb : ∀ j ∈ List.range cleaned.length,
      cleaned.getD j ' ' = '[' →
      isArr (jsonParse (jsSlice cleaned j
        ((lastCloseIdx cleaned).getD 0 + 1))) = false) :
    extractItems cleaned = .error .noJsonArray := by
  have hfallback : ∀ e, lastCloseIdx cleaned = some e → scanFrom cleaned e = none := by
    intro e he
    have hlen : ∀ j, j < e → j < cleaned.length := by
      intro j hj
      unfold lastCloseIdx at he
      rcases hfi : (cleaned.reverse.findIdx? (fun x => x = ']')) with _ | k
      · rw [hfi] at he; cases he
      · rw [hfi] at he
        simp only [Option.map_some', Option.some.injEq] at he
        have hne : cleaned ≠ [] := by
          intro h0
          rw [h0] at hfi
          cases hfi
        have hlen1 : 1 ≤ cleaned.length := by
          rcases cleaned with _ | _
          · exact absurd rfl hne
          · simp
        omega
    refine scanAux_none cleaned e e 0 (by omega) ?_
    intro j _ hj hbr
    have hmem : j ∈ List.range cleaned.length := List.mem_range.mpr (hlen j hj)
    have hx := hfb j hmem hbr
    rw [he] at hx
    simpa using hx
  unfold extractItems
  rcases hjp : jsonParse cleaned with _ | v
  · dsimp only
    rcases he : lastCloseIdx cleaned with _ | e
    · rfl
    · dsimp only
      rw [hfallback e he]
  · rcases v with _ | b | n | st | xs | fs
    · dsimp only
      rcases he : lastCloseIdx cleaned with _ | e
      · rfl
      · dsimp only
        rw [hfallback e he]
    · dsimp only
      rcases he : lastCloseIdx cleaned with _ | e
      · rfl
      · dsimp only
        rw [hfallback e he]
    · dsimp only
      rcases he : lastCloseIdx cleaned with _ | e
      · rfl
      · dsimp only
        rw [hfallback e he]
    · dsimp only
      rcases he : lastCloseIdx cleaned with _ | e
      · rfl
      · dsimp only
        rw [hfallback e he]
    · rw [hjp] at hnoarr
      simp [isArr] at hnoarr
    · dsimp only
      rcases he : lastCloseIdx cleaned with _ | e
      · rfl
      · dsimp only
        rw [hfallback e he]

/-- C5: a reply whose payload `s` strictly parses as a JSON array is read
identically whether presented clean, wrapped in a fenced code block, or
surrounded by arbitrary noise `p`/`q` (leading/trailing prose or an
unrelated bracketed phrase) that survives the cleaning pass, breaks strict
parsing, contributes no trailing `]`, and offers no earlier bracket whose
slice parses as an array; and whenever neither the strict parse nor any
fallback slice from a `[` to the last `]` yields an array, `parseResponse`
fails with the `noJsonArray` error. -/
theorem parse_response_recovers_array {s : List Char} {items : List JsonVal}
    (hs : jsonParse s = some (.jarr items))
    (hh : s.head? = some '[') (hl : s.getLast? = some ']') :
    parseResponse s = validateItems items 0 [] ∧
    parseResponse (("```json\n".data ++ s) ++ "\n```".data) = parseResponse s ∧
    (∀ p q : List Char,
      cleanResponse (p ++ s ++ q) = p ++ s ++ q →
      jsonParse (p ++ s ++ q) = none →
      ']' ∉ q →
      (∀ j ∈ List.range p.length, (p ++ s ++ q).getD j ' ' = '[' →
        isArr (jsonParse (jsSlice (p ++ s ++ q) j (p.length + s.length))) = false) →
      parseResponse (p ++ s ++ q) = parseResponse s) ∧
    (∀ r : List Char,
      isArr (jsonParse (cleanResponse r)) = false →
      (∀ j ∈ List.range (cleanResponse r).length,
        (cleanResponse r).getD j ' ' = '[' →
        isArr (jsonParse (jsSlice (cleanResponse r) j
          ((lastCloseIdx (cleanResponse r)).getD 0 + 1))) = false) →
      parseResponse r = .error .noJsonArray) := by
  have hstrict : parseResponse s = validateItems items 0 [] :=
    parseResponse_of_strict hs (cleanResponse_eq_self hh hl)
  refine ⟨hstrict, ?_, ?_, ?_⟩
  · unfold parseResponse
    rw [cleanResponse_fenced hh hl, cleanResponse_eq_self hh hl]
  · intro p q hclean hnone hq hfb
    have hs2 := two_le_length_of_brackets hh hl
    have hlast := @lastCloseIdx_concat p s q hl hq
    have hbrack : (p ++ s ++ q).getD p.length ' ' = '[' := by
      rw [List.append_assoc, getD_append_length]
      cases s with
      | nil => cases hh
      | cons a t =>
        have ha : a = '[' := by simpa using hh
        rw [List.cons_append, List.getD_cons_zero, ha]
    have hscan : scanFrom (p ++ s ++ q) (p.length + s.length - 1) = some items := by
      unfold scanFrom
      have hskip := scanAux_skip (p ++ s ++ q) (p.length + s.length - 1) p.length 0
        (by omega)
        (by
          intro j _ hj hbr
          have hmem : j ∈ List.range p.length := List.mem_range.mpr (by omega)
          have hthis := hfb j hmem hbr
          rw [(by omega : p.length + s.length - 1 + 1 = p.length + s.length)]
          exact hthis)
      rw [Nat.sub_zero, Nat.zero_add] at hskip
      rw [hskip]
      rw [(by omega : p.length + s.length - 1 - p.length = (s.length - 2) + 1)]
      rw [scanAux, if_pos hbrack]
      rw [(by omega : p.length + s.length - 1 + 1 = p.length + s.length)]
      rw [jsSlice_middle, hs]
    rw [hstrict]
    unfold parseResponse
    rw [hclean]
    unfold extractItems
    rw [hnone]
    dsimp only
    rw [hlast]
    dsimp only
    rw [hscan]
    rfl
  · intro r hnoarr hfb
    unfold parseResponse
    rw [extractItems_no_array hnoarr hfb]
    rfl

def wArrC5 : List Char := "[\x7b\"id\":0,\"citation\":\"*Id.*\"\x7d]".data

def wItemsC5 : List JsonVal :=
  [.jobj [(['i', 'd'], .jnum 0),
          (['c', 'i', 't', 'a', 't', 'i', 'o', 'n'], .jstr "*Id.*".data)]]

set_option maxRecDepth 40000 in
theorem parse_response_recovers_array_witness :
    parseResponse wArrC5 = .ok [⟨0, "*Id.*".data⟩] ∧
    parseResponse (("```json\n".data ++ wArrC5) ++ "\n```".data) = parseResponse wArrC5 ∧
    parseResponse (("Here are the corrections:\n".data ++ wArrC5) ++ " Done.".data)
      = parseResponse wArrC5 ∧
    parseResponse (("[my analysis] ".data ++ wArrC5) ++ " Done.".data)
      = parseResponse wArrC5 ∧
    parseResponse "no array here".data = .error .noJsonArray := by
  have h := @parse_response_recovers_array wArrC5 wItemsC5
    (by decide) (by decide) (by decide)
  refine ⟨?_, h.2.1, ?_, ?_, ?_⟩
  · rw [h.1]; decide
  · exact h.2.2.1 "Here are the corrections:\n".data " Done.".data
      (by decide) (by decide) (by decide) (by decide)
  · exact h.2.2.1 "[my analysis] ".data " Done.".data
      (by decide) (by decide) (by decide) (by decide)
  · exact h.2.2.2 "no array here".data (by decide) (by decide)


/-! ## Claim C8 -/

/-- The claim's "truncation cut occurred mid-word" condition for the before
window: the window was truncated and both characters around the cut are
non-whitespace. -/
def cutMidWord (text : List Char) (bStart : Nat) : Bool :=
  decide (0 < bStart) && !jsWs (text.getD (bStart - 1) ' ') && !jsWs (text.getD bStart ' ')

/-- Amended-claim model of the before context: the at-most-`cw`-character
window ending at `start`; whenever any truncation occurred and the window
contains whitespace — regardless of whether the cut fell mid-word — drop
the leading fragment up to the first whitespace together with that
whitespace run; a truncated window without whitespace keeps its mid-word
fragment. -/
def beforeSpecAmended (text : List Char) (cw start : Nat) : List Char :=
  let w := jsSlice text (start - cw) start
  if 0 < start - cw ∧ w.any jsWs then
    (w.dropWhile (fun c => !jsWs c)).dropWhile jsWs
  else w

/-- Amended-claim model of the after context: the at-most-`cw`-character
window starting at the span's end; whenever truncation occurred and the
window's last whitespace sits after its first character, cut there,
dropping that whitespace and the trailing fragment; otherwise — including
a trailing fragment with no whitespace at all — keep the window whole. -/
def afterSpecAmended (text : List Char) (cw stop : Nat) : List Char :=
  let aEnd := min text.length (stop + cw)
  let w := jsSlice text stop aEnd
  let frag := w.reverse.takeWhile (fun c => !jsWs c)
  if aEnd < text.length ∧ frag.length + 1 < w.length then
    (w.reverse.drop (frag.length + 1)).reverse
  else w

/-- The first index satisfying `p` is the length of the maximal prefix
violating it, when that prefix is proper. -/
theorem findIdx?_eq_of_takeWhile (p : Char → Bool) (l : List Char) :
    l.findIdx? p =
      if (l.takeWhile (fun c => !p c)).length < l.length
      then some (l.takeWhile (fun c => !p c)).length
      else none := by
  induction l with
  | nil => rfl
  | cons a t ih =>
    rw [List.findIdx?_cons, List.takeWhile_cons]
    cases hp : p a with
    | true => simp [hp]
    | false =>
      simp only [hp, Bool.false_eq_true, if_false, Bool.not_false, if_true,
        List.length_cons, List.findIdx?_succ, ih]
      by_cases hlt : (t.takeWhile (fun c => !p c)).length < t.length
      · rw [if_pos hlt, if_pos (by omega)]
        rfl
      · rw [if_neg hlt, if_neg (by omega)]
        rfl

/-- `any` holds exactly when the maximal violating prefix is proper. -/
theorem any_iff_takeWhile_lt (p : Char → Bool) (l : List Char) :
    l.any p = true ↔ (l.takeWhile (fun c => !p c)).length < l.length := by
  rw [← List.findIdx?_isSome, findIdx?_eq_of_takeWhile]
  by_cases h : (l.takeWhile (fun c => !p c)).length < l.length
  · simp [h]
  · simp [h]

/-- Dropping while `p` holds is dropping the length of the taken prefix. -/
theorem dropWhile_eq_drop_takeWhile (p : Char → Bool) (l : List Char) :
    l.dropWhile p = l.drop (l.takeWhile p).length := by
  induction l with
  | nil => rfl
  | cons a t ih =>
    rw [List.dropWhile_cons, List.takeWhile_cons]
    cases hp : p a with
    | true => simpa using ih
    | false => simp

/-- The code's before-context computation equals the amended-claim model. -/
theorem beforeCtx_eq_amended (text : List Char) (cw start : Nat) :
    beforeCtx text cw start = beforeSpecAmended text cw start := by
  unfold beforeCtx beforeSpecAmended
  dsimp only
  by_cases h0 : 0 < start - cw
  · rw [if_pos h0, findIdx?_eq_of_takeWhile]
    by_cases hlt : ((jsSlice text (start - cw) start).takeWhile (fun c => !jsWs c)).length
        < (jsSlice text (start - cw) start).length
    · rw [if_pos hlt]
      dsimp only
      rw [if_pos ⟨h0, (any_iff_takeWhile_lt jsWs (jsSlice text (start - cw) start)).mpr hlt⟩,
        dropWhile_eq_drop_takeWhile (fun c => !jsWs c) (jsSlice text (start - cw) start)]
    · rw [if_neg hlt]
      dsimp only
      rw [if_neg (fun hc =>
        hlt ((any_iff_takeWhile_lt jsWs (jsSlice text (start - cw) start)).mp hc.2))]
  · rw [if_neg h0, if_neg (fun hc => h0 hc.1)]

/-- The code's after-context computation equals the amended-claim model. -/
theorem afterCtx_eq_amended (text : List Char) (cw stop : Nat) :
    afterCtx text cw stop = afterSpecAmended text cw stop := by
  unfold afterCtx afterSpecAmended lastWsIdx
  dsimp only
  by_cases haE : min text.length (stop + cw) < text.length
  · rw [if_pos haE, findIdx?_eq_of_takeWhile]
    by_cases hk : ((jsSlice text stop (min text.length (stop + cw))).reverse.takeWhile
        (fun c => !jsWs c)).length
        < (jsSlice text stop (min text.length (stop + cw))).reverse.length
    · rw [if_pos hk]
      simp only [Option.map_some']
      rw [List.length_reverse] at hk
      by_cases hk1 : ((jsSlice text stop (min text.length (stop + cw))).reverse.takeWhile
          (fun c => !jsWs c)).length + 1
          < (jsSlice text stop (min text.length (stop + cw))).length
      · rw [if_pos (by omega), if_pos ⟨haE, hk1⟩,
          List.drop_reverse, List.reverse_reverse]
        congr 1
        omega
      · rw [if_neg (by omega), if_neg (fun hc => hk1 hc.2)]
    · rw [if_neg hk]
      simp only [Option.map_none']
      rw [List.length_reverse] at hk
      rw [if_neg (fun hc => hk (by omega))]
  · rw [if_neg haE, if_neg (fun hc => haE hc.1)]

/-- A span at the very start of the text has an empty before window. -/
theorem beforeCtx_start_zero (text : List Char) (cw : Nat) :
    beforeCtx text cw 0 = [] := by
  unfold beforeCtx
  dsimp only
  rw [Nat.zero_sub]
  rw [if_neg (by omega)]
  rfl

/-- A span ending at the very end of the text has an empty after window. -/
theorem afterCtx_stop_end (text : List Char) (cw : Nat) :
    afterCtx text cw text.length = [] := by
  unfold afterCtx
  dsimp only
  have hmin : min text.length (text.length + cw) = text.length :=
    Nat.min_eq_left (Nat.le_add_right _ _)
  rw [hmin, if_neg (lt_irrefl _)]
  unfold jsSlice
  rw [List.take_length, List.drop_length]

/-- Context width zero yields an empty before window. -/
theorem beforeCtx_cw_zero (text : List Char) (start : Nat) :
    beforeCtx text 0 start = [] := by
  have hnil : jsSlice text (start - 0) start = [] := by
    unfold jsSlice
    exact List.drop_eq_nil_of_le (by
      rw [List.length_take]
      omega)
  unfold beforeCtx
  dsimp only
  rw [hnil]
  split
  · rfl
  · rfl

/-- Context width zero yields an empty after window. -/
theorem afterCtx_cw_zero (text : List Char) (stop : Nat) :
    afterCtx text 0 stop = [] := by
  have hnil : jsSlice text stop (min text.length (stop + 0)) = [] := by
    unfold jsSlice
    exact List.drop_eq_nil_of_le (by
      rw [List.length_take]
      omega)
  unfold afterCtx
  dsimp only
  rw [hnil]
  split
  · rfl
  · rfl


/-- C8 counterexample: with context width 3 and the citation "Id. at 3" at
offsets [6, 14) of "ab cd Id. at 3", the truncation cut at offset 3 falls
exactly on a word start — the preceding character is a space, so the cut
is not mid-word — yet the code still trims forward: the before context
comes out empty instead of the untrimmed window "cd ". -/
theorem extract_context_trims_at_word_start :
    (extractCitationsFrom "ab cd Id. at 3".data 3 [⟨"Id. at 3".data, 6, 14⟩] []).map
        (fun c => c.before) = [[]] ∧
    jsSlice "ab cd Id. at 3".data 3 6 = "cd ".data ∧
    cutMidWord "ab cd Id. at 3".data 3 = false := by decide

/-- C8 (amended): every extracted span's before context is the
at-most-`cw`-character window ending at its start, trimmed past the first
whitespace run whenever any truncation occurred and the window contains
whitespace (even when the cut fell on a word boundary, dropping a whole
leading word), and kept whole otherwise (even mid-word); the after context
is the window starting at its end, cut at its last whitespace when
truncation occurred and that whitespace sits after the window's first
character, kept whole otherwise; a span touching the start or end of the
text yields an empty before/after, and width zero yields empty contexts. -/
theorem extract_context_windows (text : List Char) (cw : Nat)
    (ms sigs : List PatternMatch) :
    ∀ c ∈ extractCitationsFrom text cw ms sigs,
      c.before = beforeSpecAmended text cw c.start ∧
      c.after = afterSpecAmended text cw c.stop ∧
      (c.start = 0 → c.before = []) ∧
      (c.stop = text.length → c.after = []) ∧
      (cw = 0 → c.before = [] ∧ c.after = []) := by
  intro c hc
  simp only [extractCitationsFrom, List.mem_map] at hc
  obtain ⟨p, hp, hceq⟩ := hc
  subst hceq
  refine ⟨beforeCtx_eq_amended text cw p.2.start,
    afterCtx_eq_amended text cw p.2.stop, ?_, ?_, ?_⟩
  · intro h0
    have h1 : p.2.start = 0 := h0
    show beforeCtx text cw p.2.start = []
    rw [h1]
    exact beforeCtx_start_zero text cw
  · intro h0
    have h1 : p.2.stop = text.length := h0
    show afterCtx text cw p.2.stop = []
    rw [h1]
    exact afterCtx_stop_end text cw
  · intro h0
    subst h0
    exact ⟨beforeCtx_cw_zero text p.2.start, afterCtx_cw_zero text p.2.stop⟩

def wCtxC8 : CitationContext :=
  ⟨0, "Id.".data, [], " fg".data, 6, 9⟩

set_option maxRecDepth 40000 in
theorem extract_context_windows_witness :
    wCtxC8 ∈ extractCitationsFrom "abcde Id. fg hi".data 4 [⟨"Id.".data, 6, 9⟩] [] ∧
    wCtxC8.before = beforeSpecAmended "abcde Id. fg hi".data 4 wCtxC8.start ∧
    wCtxC8.after = afterSpecAmended "abcde Id. fg hi".data 4 wCtxC8.stop ∧
    (wCtxC8.start = 0 → wCtxC8.before = []) ∧
    (wCtxC8.stop = "abcde Id. fg hi".data.length → wCtxC8.after = []) ∧
    (4 = 0 → wCtxC8.before = [] ∧ wCtxC8.after = []) := by
  have hm : wCtxC8 ∈ extractCitationsFrom "abcde Id. fg hi".data 4
      [⟨"Id.".data, 6, 9⟩] [] := by decide
  have h := extract_context_windows "abcde Id. fg hi".data 4
    [⟨"Id.".data, 6, 9⟩] [] wCtxC8 hm
  exact ⟨hm, h.1, h.2.1, h.2.2.1, h.2.2.2.1, h.2.2.2.2⟩


/-! ## Claims C9 and C10

The regex scanning phase is hypothesised, not re-implemented: `ValidMatch`
states the `RegExpExecArray` guarantees for one match (`match.index`,
`match.index + match[0].length` and `match[0]` itself), the signal
hypotheses state that `SIGNAL_RE.exec` returns nonempty matches in
ascending disjoint text order (a `/g` regex never returns overlapping
matches), and `NoStraddle` states that no signal match runs across a
citation match's right end — a signal always ends with a whitespace
character while none of the citation patterns can end with one. -/

/-- The `exec` guarantees for one raw match: a nonempty in-bounds span
whose recorded text is the matched slice. -/
def ValidMatch (text : List Char) (m : PatternMatch) : Prop :=
  m.start < m.stop ∧ m.stop ≤ text.length ∧ m.text = jsSlice text m.start m.stop

instance (text : List Char) (m : PatternMatch) : Decidable (ValidMatch text m) := by
  unfold ValidMatch
  infer_instance

/-- No signal straddles a raw match's right end: it starts at or after the
match's end, or ends strictly inside it. -/
def NoStraddle (sigs ms : List PatternMatch) : Prop :=
  ∀ s ∈ sigs, ∀ m ∈ ms, m.stop ≤ s.start ∨ s.stop < m.stop

instance (sigs ms : List PatternMatch) : Decidable (NoStraddle sigs ms) := by
  unfold NoStraddle
  infer_instance

instance : IsTotal PatternMatch matchLE := by
  constructor
  intro a b
  unfold matchLE
  omega

instance : IsTrans PatternMatch matchLE := by
  constructor
  intro a b c
  unfold matchLE
  omega

/-- Replacing the head of a start-sorted chain by an earlier-starting span
keeps it sorted. -/
theorem chain_start_anti {a b : PatternMatch} {l : List PatternMatch}
    (hab : a.start ≤ b.start)
    (h : List.Chain' (fun x y : PatternMatch => x.start ≤ y.start) (b :: l)) :
    List.Chain' (fun x y : PatternMatch => x.start ≤ y.start) (a :: l) := by
  rw [List.chain'_cons'] at h ⊢
  exact ⟨fun y hy => le_trans hab (h.1 y hy), h.2⟩

/-- In an ascending disjoint signal list, everything after `s` starts at or
after `s.stop`. -/
theorem sig_after :
    ∀ (rest : List PatternMatch) (s : PatternMatch),
      List.Chain' (fun x y : PatternMatch => x.stop ≤ y.start) (s :: rest) →
      (∀ x ∈ rest, x.start < x.stop) →
      ∀ x ∈ rest, s.stop ≤ x.start := by
  intro rest
  induction rest with
  | nil =>
    intro s _ _ x hx
    cases hx
  | cons h t ih =>
    intro s hc hlt x hx
    rw [List.chain'_cons] at hc
    rcases List.mem_cons.mp hx with rfl | hx
    · exact hc.1
    · have h2 := ih h hc.2 (fun y hy => hlt y (List.mem_cons_of_mem _ hy)) x hx
      have hh : h.start < h.stop := hlt h (List.mem_cons_self _ _)
      have h1 : s.stop ≤ h.start := hc.1
      omega

/-- The fusion fold leaves a citation alone when no signal is adjacent to
its start. -/
theorem fuseOne_fixed (text : List Char) :
    ∀ (l : List PatternMatch) (c : PatternMatch),
      (∀ s ∈ l, ¬(s.stop = c.start ∨ s.stop + 1 = c.start)) →
      fuseOne text l c = c := by
  intro l
  induction l with
  | nil =>
    intro c _
    rfl
  | cons s t ih =>
    intro c hno
    unfold fuseOne
    rw [List.foldl_cons]
    rw [if_neg (hno s (List.mem_cons_self _ _))]
    exact ih c (fun x hx => hno x (List.mem_cons_of_mem _ hx))

/-- What the signal-fusion loop does to one merged citation under ascending
disjoint nonempty signals: the end never moves, validity is preserved, and
the start either stays or moves back to the start of a signal adjacent to
the citation's original start (at most one signal can ever fire). -/
theorem fuseOne_spec (text : List Char) :
    ∀ (sigs : List PatternMatch) (c : PatternMatch),
      (∀ s ∈ sigs, s.start < s.stop) →
      List.Chain' (fun x y : PatternMatch => x.stop ≤ y.start) sigs →
      ValidMatch text c →
      (fuseOne text sigs c).stop = c.stop ∧
      ValidMatch text (fuseOne text sigs c) ∧
      ((fuseOne text sigs c).start = c.start ∨
        ∃ s ∈ sigs, (s.stop = c.start ∨ s.stop + 1 = c.start) ∧
          (fuseOne text sigs c).start = s.start) := by
  intro sigs
  induction sigs with
  | nil =>
    intro c _ _ hc
    exact ⟨rfl, hc, .inl rfl⟩
  | cons s t ih =>
    intro c hlt hch hc
    by_cases hcond : s.stop = c.start ∨ s.stop + 1 = c.start
    · have hstep : fuseOne text (s :: t) c
          = fuseOne text t ⟨jsSlice text s.start c.stop, s.start, c.stop⟩ := by
        unfold fuseOne
        rw [List.foldl_cons]
        rw [if_pos hcond]
      have hfix : fuseOne text t ⟨jsSlice text s.start c.stop, s.start, c.stop⟩
          = ⟨jsSlice text s.start c.stop, s.start, c.stop⟩ := by
        apply fuseOne_fixed
        intro x hx hbad
        have hbad' : x.stop = s.start ∨ x.stop + 1 = s.start := hbad
        have h1 := sig_after t s hch (fun y hy => hlt y (List.mem_cons_of_mem _ hy)) x hx
        have h2 : x.start < x.stop := hlt x (List.mem_cons_of_mem _ hx)
        have h3 : s.start < s.stop := hlt s (List.mem_cons_self _ _)
        omega
      rw [hstep, hfix]
      have h3 : s.start < s.stop := hlt s (List.mem_cons_self _ _)
      have h4 : c.start < c.stop := hc.1
      refine ⟨rfl, ⟨?_, hc.2.1, rfl⟩, .inr ⟨s, List.mem_cons_self _ _, hcond, rfl⟩⟩
      show s.start < c.stop
      omega
    · have hstep : fuseOne text (s :: t) c = fuseOne text t c := by
        unfold fuseOne
        rw [List.foldl_cons]
        rw [if_neg hcond]
      rw [hstep]
      have ht := ih c (fun y hy => hlt y (List.mem_cons_of_mem _ hy))
        (List.chain'_cons'.mp hch).2 hc
      refine ⟨ht.1, ht.2.1, ?_⟩
      rcases ht.2.2 with h | ⟨sx, hs, hcx, hex⟩
      · exact .inl h
      · exact .inr ⟨sx, List.mem_cons_of_mem _ hs, hcx, hex⟩


/-- Soundness of the merge loop: the output's first span keeps `cur`'s
start, every output span is valid, consecutive outputs are separated by a
gap, and every output end is one of the input ends. -/
theorem mergeRec_sound (text : List Char) :
    ∀ (ms : List PatternMatch) (cur : PatternMatch),
      ValidMatch text cur →
      (∀ m ∈ ms, ValidMatch text m) →
      List.Chain' (fun a b : PatternMatch => a.start ≤ b.start) (cur :: ms) →
      (mergeRec text cur ms).head?.map (fun g => g.start) = some cur.start ∧
      (∀ g ∈ mergeRec text cur ms, ValidMatch text g) ∧
      List.Chain' (fun a b : PatternMatch => a.stop < b.start) (mergeRec text cur ms) ∧
      (∀ g ∈ mergeRec text cur ms, g.stop = cur.stop ∨ ∃ m ∈ ms, g.stop = m.stop) := by
  intro ms
  induction ms with
  | nil =>
    intro cur hcur _ _
    refine ⟨rfl, ?_, List.chain'_singleton cur, ?_⟩
    · intro g hg
      rcases List.mem_singleton.mp hg
      exact hcur
    · intro g hg
      rcases List.mem_singleton.mp hg
      exact .inl rfl
  | cons m rest ih =>
    intro cur hcur hall hch
    rw [List.chain'_cons] at hch
    rw [mergeRec]
    by_cases hin : m.start ≤ cur.stop
    · rw [if_pos hin]
      by_cases hext : cur.stop < m.stop
      · rw [if_pos hext]
        have hvm := hall m (List.mem_cons_self _ _)
        have hnew : ValidMatch text ⟨jsSlice text cur.start m.stop, cur.start, m.stop⟩ := by
          refine ⟨?_, hvm.2.1, rfl⟩
          show cur.start < m.stop
          have h1 := hcur.1
          omega
        have hch' : List.Chain' (fun a b : PatternMatch => a.start ≤ b.start)
            ((⟨jsSlice text cur.start m.stop, cur.start, m.stop⟩ : PatternMatch) :: rest) :=
          chain_start_anti hch.1 hch.2
        obtain ⟨h1, h2, h3, h4⟩ := ih ⟨jsSlice text cur.start m.stop, cur.start, m.stop⟩
          hnew (fun x hx => hall x (List.mem_cons_of_mem _ hx)) hch'
        refine ⟨h1, h2, h3, ?_⟩
        intro g hg
        rcases h4 g hg with h | ⟨mx, hmx, he⟩
        · exact .inr ⟨m, List.mem_cons_self _ _, h⟩
        · exact .inr ⟨mx, List.mem_cons_of_mem _ hmx, he⟩
      · rw [if_neg hext]
        have hch' : List.Chain' (fun a b : PatternMatch => a.start ≤ b.start) (cur :: rest) :=
          chain_start_anti hch.1 hch.2
        obtain ⟨h1, h2, h3, h4⟩ := ih cur hcur
          (fun x hx => hall x (List.mem_cons_of_mem _ hx)) hch'
        refine ⟨h1, h2, h3, ?_⟩
        intro g hg
        rcases h4 g hg with h | ⟨mx, hmx, he⟩
        · exact .inl h
        · exact .inr ⟨mx, List.mem_cons_of_mem _ hmx, he⟩
    · rw [if_neg hin]
      obtain ⟨h1, h2, h3, h4⟩ := ih m (hall m (List.mem_cons_self _ _))
        (fun x hx => hall x (List.mem_cons_of_mem _ hx)) hch.2
      refine ⟨rfl, ?_, ?_, ?_⟩
      · intro g hg
        rcases List.mem_cons.mp hg with rfl | hg
        · exact hcur
        · exact h2 g hg
      · rw [List.chain'_cons']
        refine ⟨?_, h3⟩
        intro y hy
        have hys : y.start = m.start := by
          rcases hh : (mergeRec text m rest).head? with _ | z
          · rw [hh] at hy
            cases hy
          · rw [hh] at hy h1
            simp only [Option.map_some', Option.some.injEq] at h1
            have hyz : y = z := by
              cases hy
              rfl
            rw [hyz, h1]
        show cur.stop < y.start
        omega
      · intro g hg
        rcases List.mem_cons.mp hg with rfl | hg
        · exact .inl rfl
        · rcases h4 g hg with h | ⟨mx, hmx, he⟩
          · exact .inr ⟨m, List.mem_cons_self _ _, h⟩
          · exact .inr ⟨mx, List.mem_cons_of_mem _ hmx, he⟩


/-- Soundness of sort then merge: every merged span is valid, consecutive
merged spans have a strict gap, and every merged end is one of the raw
match ends. -/
theorem mergeMatches_sound (text : List Char) (ms : List PatternMatch)
    (hms : ∀ m ∈ ms, ValidMatch text m) :
    (∀ g ∈ mergeMatches text (sortMatches ms), ValidMatch text g) ∧
    List.Chain' (fun a b : PatternMatch => a.stop < b.start)
      (mergeMatches text (sortMatches ms)) ∧
    (∀ g ∈ mergeMatches text (sortMatches ms), ∃ m ∈ ms, g.stop = m.stop) := by
  have hperm := List.perm_insertionSort matchLE ms
  have hvalid : ∀ m ∈ sortMatches ms, ValidMatch text m := by
    intro m hm
    exact hms m (hperm.mem_iff.mp hm)
  have hmem : ∀ m ∈ sortMatches ms, m ∈ ms := by
    intro m hm
    exact hperm.mem_iff.mp hm
  have hchain : List.Chain' (fun a b : PatternMatch => a.start ≤ b.start) (sortMatches ms) := by
    apply List.Pairwise.chain'
    refine (List.sorted_insertionSort matchLE ms).imp ?_
    intro a b hab
    rcases hab with h | ⟨h, _⟩
    · omega
    · omega
  rcases hsort : sortMatches ms with _ | ⟨m, rest⟩
  · refine ⟨?_, ?_, ?_⟩
    · intro g hg
      cases hg
    · exact List.chain'_nil
    · intro g hg
      cases hg
  · rw [hsort] at hvalid hmem hchain
    obtain ⟨h1, h2, h3, h4⟩ := mergeRec_sound text rest m
      (hvalid m (List.mem_cons_self _ _))
      (fun x hx => hvalid x (List.mem_cons_of_mem _ hx)) hchain
    rw [mergeMatches]
    refine ⟨h2, h3, ?_⟩
    intro g hg
    rcases h4 g hg with h | ⟨mx, hmx, he⟩
    · exact ⟨m, hmem m (List.mem_cons_self _ _), h⟩
    · exact ⟨mx, hmem mx (List.mem_cons_of_mem _ hmx), he⟩

/-- Upgrading a chain pointwise using a property of the list's members. -/
theorem chain_upgrade {α : Type} {R S : α → α → Prop} {P : α → Prop} :
    ∀ (l : List α), List.Chain' R l → (∀ x ∈ l, P x) →
      (∀ a b, P a → P b → R a b → S a b) → List.Chain' S l := by
  intro l
  induction l with
  | nil =>
    intro _ _ _
    exact List.chain'_nil
  | cons a t ih =>
    intro hch hP himp
    rw [List.chain'_cons'] at hch ⊢
    refine ⟨?_, ih hch.2 (fun x hx => hP x (List.mem_cons_of_mem _ hx)) himp⟩
    intro y hy
    have hyt : y ∈ t := by
      rcases hh : t.head? with _ | z
      · rw [hh] at hy
        cases hy
      · have hyz : y = z := by
          rw [hh] at hy
          cases hy
          rfl
        rw [hyz]
        exact List.mem_of_mem_head? hh
    exact himp a y (hP a (List.mem_cons_self _ _)) (hP y (List.mem_cons_of_mem _ hyt))
      (hch.1 y hy)

/-- A chain on the underlying list lifts to its enumeration. -/
theorem chain_enumFrom {α : Type} {R : α → α → Prop} :
    ∀ (l : List α) (n : Nat), List.Chain' R l →
      List.Chain' (fun p q : Nat × α => R p.2 q.2) (l.enumFrom n) := by
  intro l
  induction l with
  | nil =>
    intro n _
    exact List.chain'_nil
  | cons a t ih =>
    intro n h
    cases t with
    | nil => exact List.chain'_singleton _
    | cons b u =>
      rw [List.chain'_cons] at h
      rw [List.enumFrom_cons, List.enumFrom_cons, List.chain'_cons]
      refine ⟨h.1, ?_⟩
      have := ih (n + 1) h.2
      rw [List.enumFrom_cons] at this
      exact this

/-- The element of an enumerated pair belongs to the underlying list. -/
theorem snd_mem_of_mem_enumFrom {α : Type} :
    ∀ (l : List α) (n : Nat) (p : Nat × α), p ∈ l.enumFrom n → p.2 ∈ l := by
  intro l
  induction l with
  | nil =>
    intro n p hp
    cases hp
  | cons a t ih =>
    intro n p hp
    rw [List.enumFrom_cons] at hp
    rcases List.mem_cons.mp hp with h | h
    · rw [h]
      exact List.mem_cons_self _ _
    · exact List.mem_cons_of_mem _ (ih (n + 1) p h)


/-- Master soundness of the extraction pipeline under the regex-phase
guarantees: bounds, slice identity, enumerated ids and disjoint ascending
spans, all surviving merge and signal fusion. -/
theorem extract_sound (text : List Char) (cw : Nat) (ms sigs : List PatternMatch)
    (hms : ∀ m ∈ ms, ValidMatch text m)
    (hsig : ∀ s ∈ sigs, s.start < s.stop)
    (hasc : List.Chain' (fun x y : PatternMatch => x.stop ≤ y.start) sigs)
    (hns : NoStraddle sigs ms) :
    (∀ c ∈ extractCitationsFrom text cw ms sigs,
      c.start < c.stop ∧ c.stop ≤ text.length ∧ c.original = jsSlice text c.start c.stop) ∧
    (extractCitationsFrom text cw ms sigs).map (fun c => c.id)
      = List.range (extractCitationsFrom text cw ms sigs).length ∧
    List.Chain' (fun a b : CitationContext => a.stop ≤ b.start ∧ a.start < b.start)
      (extractCitationsFrom text cw ms sigs) := by
  obtain ⟨hv, hgap, hstops⟩ := mergeMatches_sound text ms hms
  have hfused : ∀ g ∈ mergeMatches text (sortMatches ms),
      ValidMatch text (fuseOne text sigs g) :=
    fun g hg => (fuseOne_spec text sigs g hsig hasc (hv g hg)).2.1
  have hfchain : List.Chain'
      (fun a b : PatternMatch => a.stop ≤ b.start ∧ a.start < b.start)
      (fuseSignals text sigs (mergeMatches text (sortMatches ms))) := by
    unfold fuseSignals
    rw [List.chain'_map]
    refine chain_upgrade (P := fun g => ValidMatch text g ∧ ∃ m ∈ ms, g.stop = m.stop)
      _ hgap (fun g hg => ⟨hv g hg, hstops g hg⟩) ?_
    intro a b hpa hpb hab
    obtain ⟨sa1, sa2, sa3⟩ := fuseOne_spec text sigs a hsig hasc hpa.1
    obtain ⟨sb1, sb2, sb3⟩ := fuseOne_spec text sigs b hsig hasc hpb.1
    have hfa : (fuseOne text sigs a).start < (fuseOne text sigs a).stop := sa2.1
    rcases sb3 with hb | ⟨s, hsm, hcond, hbs⟩
    · constructor
      · omega
      · omega
    · obtain ⟨m, hm, he⟩ := hpa.2
      rcases hns s hsm m hm with hno | hno
      · constructor
        · omega
        · omega
      · exfalso
        rcases hcond with h | h
        · omega
        · omega
  refine ⟨?_, ?_, ?_⟩
  · intro c hc
    simp only [extractCitationsFrom, List.mem_map] at hc
    obtain ⟨p, hp, hceq⟩ := hc
    subst hceq
    have hmem : p.2 ∈ fuseSignals text sigs (mergeMatches text (sortMatches ms)) :=
      snd_mem_of_mem_enumFrom _ 0 p hp
    unfold fuseSignals at hmem
    rw [List.mem_map] at hmem
    obtain ⟨g, hg, hge⟩ := hmem
    have hvg := hfused g hg
    rw [hge] at hvg
    exact ⟨hvg.1, hvg.2.1, hvg.2.2⟩
  · unfold extractCitationsFrom
    dsimp only
    rw [List.map_map, show ((fun c : CitationContext => c.id) ∘ fun p : Nat × PatternMatch =>
        (⟨p.1, p.2.text, beforeCtx text cw p.2.start, afterCtx text cw p.2.stop,
          p.2.start, p.2.stop⟩ : CitationContext)) = Prod.fst from rfl,
      List.enum_map_fst, List.length_map, List.enum_length]
  · unfold extractCitationsFrom
    dsimp only
    rw [List.chain'_map]
    exact chain_enumFrom _ 0 hfchain


/-- C9: under the regex-phase guarantees (valid matches, nonempty ascending
disjoint signals, no signal straddling a match end), every extracted span
satisfies 0 ≤ start < end ≤ |text|, its stored text is exactly the slice
`text[start:end]` even after merging and signal fusion, and the ids are
0, 1, 2, … assigned in strictly left-to-right start order. -/
theorem extract_spans_invariants (text : List Char) (cw : Nat)
    (ms sigs : List PatternMatch)
    (hms : ∀ m ∈ ms, ValidMatch text m)
    (hsig : ∀ s ∈ sigs, s.start < s.stop)
    (hasc : List.Chain' (fun x y : PatternMatch => x.stop ≤ y.start) sigs)
    (hns : NoStraddle sigs ms) :
    (∀ c ∈ extractCitationsFrom text cw ms sigs,
      c.start < c.stop ∧ c.stop ≤ text.length ∧
      c.original = jsSlice text c.start c.stop) ∧
    (extractCitationsFrom text cw ms sigs).map (fun c => c.id)
      = List.range (extractCitationsFrom text cw ms sigs).length ∧
    List.Chain' (fun a b : CitationContext => a.start < b.start)
      (extractCitationsFrom text cw ms sigs) := by
  obtain ⟨h1, h2, h3⟩ := extract_sound text cw ms sigs hms hsig hasc hns
  exact ⟨h1, h2, h3.imp (fun _ _ hab => hab.2)⟩

def wTextC9 : List Char := "x Id. See Id.".data

def wMsC9 : List PatternMatch := [⟨"Id.".data, 2, 5⟩, ⟨"Id.".data, 10, 13⟩]

def wSigC9 : List PatternMatch := [⟨"See ".data, 6, 10⟩]

set_option maxRecDepth 40000 in
theorem extract_spans_invariants_witness :
    (∀ c ∈ extractCitationsFrom wTextC9 0 wMsC9 wSigC9,
      c.start < c.stop ∧ c.stop ≤ wTextC9.length ∧
      c.original = jsSlice wTextC9 c.start c.stop) ∧
    (extractCitationsFrom wTextC9 0 wMsC9 wSigC9).map (fun c => c.id)
      = List.range (extractCitationsFrom wTextC9 0 wMsC9 wSigC9).length ∧
    List.Chain' (fun a b : CitationContext => a.start < b.start)
      (extractCitationsFrom wTextC9 0 wMsC9 wSigC9) :=
  extract_spans_invariants wTextC9 0 wMsC9 wSigC9
    (by decide) (by decide) (List.chain'_singleton _) (by decide)

/-- C10: under the same regex-phase guarantees, the extracted spans are
pairwise non-overlapping intervals — each span's end is at most the next
span's start — in strictly increasing start order, and this survives the
signal-fusion step pulling span starts backward. -/
theorem extract_spans_disjoint (text : List Char) (cw : Nat)
    (ms sigs : List PatternMatch)
    (hms : ∀ m ∈ ms, ValidMatch text m)
    (hsig : ∀ s ∈ sigs, s.start < s.stop)
    (hasc : List.Chain' (fun x y : PatternMatch => x.stop ≤ y.start) sigs)
    (hns : NoStraddle sigs ms) :
    List.Chain' (fun a b : CitationContext => a.stop ≤ b.start ∧ a.start < b.start)
      (extractCitationsFrom text cw ms sigs) :=
  (extract_sound text cw ms sigs hms hsig hasc hns).2.2

set_option maxRecDepth 40000 in
theorem extract_spans_disjoint_witness :
    List.Chain' (fun a b : CitationContext => a.stop ≤ b.start ∧ a.start < b.start)
      (extractCitationsFrom wTextC9 2 wMsC9 wSigC9) ∧
    (extractCitationsFrom wTextC9 2 wMsC9 wSigC9).map
        (fun c => (c.start, c.stop)) = [(2, 5), (6, 13)] :=
  ⟨extract_spans_disjoint wTextC9 2 wMsC9 wSigC9
    (by decide) (by decide) (List.chain'_singleton _) (by decide), by decide⟩


end Bluebookify
